import Mathlib

/-!
Shallow embedding of the reconciliation core of the iam-lifecycle-demo
backend (identity engine, diff planner, mock provisioner adapters and the
sync task), together with proofs about the claims of its specification.

Python dicts are modelled as insertion-ordered association lists with
unique keys: lookup returns the value at the first matching key, update
replaces the value in place, and `setdefault` appends a fresh binding at
the end when the key is absent.
-/

namespace IamDemo

/-! ### String ordering primitives

Python compares strings lexicographically by code point; `sorted` uses that
order.  Lean's `String.decidableLE` is iterator-based and does not reduce in
the kernel, so we give a structurally recursive comparator and prove it
agrees with Mathlib's `LinearOrder String`. -/

/-- Lexicographic strict comparison of character lists by code point. -/
def strLtb : List Char → List Char → Bool
  | [], [] => false
  | [], _ :: _ => true
  | _ :: _, [] => false
  | a :: as, b :: bs => if a < b then true else if b < a then false else strLtb as bs

/-- Python `s < t` on strings. -/
def pyLt (s t : String) : Bool := strLtb s.data t.data

/-- Python `s <= t` on strings. -/
def pyLe (s t : String) : Bool := !(pyLt t s)

theorem strLtb_iff : ∀ a b : List Char, strLtb a b = true ↔ List.Lex (· < ·) a b := by
  intro a
  induction a with
  | nil =>
    intro b
    cases b with
    | nil =>
      apply iff_of_false
      · simp [strLtb]
      · intro h; cases h
    | cons c cs =>
      apply iff_of_true
      · rfl
      · exact List.Lex.nil
  | cons a as ih =>
    intro b
    cases b with
    | nil =>
      apply iff_of_false
      · simp [strLtb]
      · intro h; cases h
    | cons c cs =>
      simp only [strLtb]
      rcases lt_trichotomy a c with h | h | h
      · simp only [h, if_pos]
        exact iff_of_true trivial (List.Lex.rel h)
      · subst h
        simp only [lt_irrefl, if_neg, if_false]
        rw [ih cs]
        constructor
        · exact fun hl => List.Lex.cons hl
        · intro hl
          cases hl with
          | cons hl' => exact hl'
          | rel hr => exact absurd hr (lt_irrefl a)
      · have h1 : ¬ a < c := not_lt_of_gt h
        simp only [h1, if_neg, if_false, h, if_pos]
        apply iff_of_false
        · simp
        · intro hl
          cases hl with
          | cons hl' => exact absurd h (lt_irrefl a)
          | rel hr => exact absurd hr h1

theorem pyLt_iff (s t : String) : pyLt s t = true ↔ s < t := by
  rw [pyLt, strLtb_iff]
  exact (String.lt_iff_toList_lt).symm

theorem pyLe_iff (s t : String) : pyLe s t = true ↔ s ≤ t := by
  rw [pyLe, Bool.not_eq_true', Bool.eq_false_iff]
  constructor
  · intro h
    rcases le_total s t with h' | h'
    · exact h'
    · rcases lt_or_eq_of_le h' with h'' | h''
      · exact absurd ((pyLt_iff t s).mpr h'') h
      · exact le_of_eq h''.symm
  · intro h hc
    exact absurd ((pyLt_iff t s).mp hc) (not_lt_of_le h)

/-- Insert a string into a (sorted) list, Python-`sorted`-compatible. -/
def insertSorted (x : String) : List String → List String
  | [] => [x]
  | y :: t => if pyLe x y then x :: y :: t else y :: insertSorted x t

/-- Insertion sort by code-point order (Python `sorted` on distinct
strings produces exactly this list). -/
def sortStr (l : List String) : List String := l.foldr insertSorted []

theorem insertSorted_eq (x : String) (l : List String) :
    insertSorted x l = List.orderedInsert (· ≤ ·) x l := by
  induction l with
  | nil => rfl
  | cons y t ih =>
    simp only [insertSorted, List.orderedInsert]
    by_cases h : x ≤ y
    · simp [h, (pyLe_iff x y).mpr h]
    · have : pyLe x y = false := by
        rw [Bool.eq_false_iff]
        intro hc
        exact h ((pyLe_iff x y).mp hc)
      simp [h, this, ih]

theorem sortStr_eq (l : List String) :
    sortStr l = List.insertionSort (· ≤ ·) l := by
  induction l with
  | nil => rfl
  | cons x t ih =>
    simp only [sortStr, List.foldr, List.insertionSort] at *
    rw [ih, insertSorted_eq]

theorem sortStr_sorted (l : List String) : (sortStr l).Sorted (· ≤ ·) := by
  rw [sortStr_eq]; exact List.sorted_insertionSort _ l

theorem sortStr_perm (l : List String) : List.Perm (sortStr l) l := by
  rw [sortStr_eq]; exact List.perm_insertionSort _ l

/-- Keep the first occurrence of every element (the order in which Python
builds a `set` is irrelevant here because the result is always sorted). -/
def dedupFirst : List String → List String
  | [] => []
  | a :: t => a :: (dedupFirst t).filter (· ≠ a)

theorem mem_dedupFirst (x : String) : ∀ l : List String,
    x ∈ dedupFirst l ↔ x ∈ l := by
  intro l
  induction l with
  | nil => simp [dedupFirst]
  | cons a t ih =>
    simp only [dedupFirst, List.mem_cons, List.mem_filter, ih]
    by_cases hx : x = a
    · simp [hx]
    · simp [hx]

theorem dedupFirst_nodup : ∀ l : List String, (dedupFirst l).Nodup := by
  intro l
  induction l with
  | nil => simp [dedupFirst]
  | cons a t ih =>
    simp only [dedupFirst]
    refine List.Nodup.cons ?_ (List.Nodup.filter _ ih)
    intro h
    simp only [List.mem_filter] at h
    simp at h

/-- Python `sorted(set(l))`. -/
def pySortedSet (l : List String) : List String := sortStr (dedupFirst l)

/-- Python `sorted(set(a) - set(b))`. -/
def pySortedDiff (a b : List String) : List String :=
  pySortedSet (a.filter (fun x => decide (x ∉ b)))

theorem sorted_nodup_ext {l₁ l₂ : List String}
    (s₁ : l₁.Sorted (· ≤ ·)) (s₂ : l₂.Sorted (· ≤ ·))
    (n₁ : l₁.Nodup) (n₂ : l₂.Nodup)
    (h : ∀ x, x ∈ l₁ ↔ x ∈ l₂) : l₁ = l₂ :=
  List.eq_of_perm_of_sorted ((List.perm_ext_iff_of_nodup n₁ n₂).mpr h) s₁ s₂

theorem pySortedSet_sorted (l : List String) :
    (pySortedSet l).Sorted (· ≤ ·) := sortStr_sorted _

theorem pySortedSet_nodup (l : List String) : (pySortedSet l).Nodup :=
  ((sortStr_perm _).nodup_iff).mpr (dedupFirst_nodup l)

theorem mem_pySortedSet (x : String) (l : List String) :
    x ∈ pySortedSet l ↔ x ∈ l := by
  rw [pySortedSet, (sortStr_perm _).mem_iff, mem_dedupFirst]

theorem pySortedSet_eq_sort (l : List String) :
    pySortedSet l = l.toFinset.sort (· ≤ ·) := by
  refine sorted_nodup_ext (pySortedSet_sorted l) (Finset.sort_sorted _ _)
    (pySortedSet_nodup l) (Finset.sort_nodup _ _) ?_
  intro x
  rw [mem_pySortedSet, Finset.mem_sort, List.mem_toFinset]

theorem pySortedDiff_eq_sort (a b : List String) :
    pySortedDiff a b = (a.toFinset \ b.toFinset).sort (· ≤ ·) := by
  rw [pySortedDiff, pySortedSet_eq_sort]
  congr 1
  ext x
  simp [List.mem_filter, Finset.mem_sdiff]

/-- Python `d.get(k)` on an association list. -/
def alGet (k : String) : List (String × α) → Option α
  | [] => none
  | (k', v) :: t => if k' = k then some v else alGet k t

/-- Python `d[k] = v` for a key that may or may not be present:
replaces in place, appends at the end otherwise. -/
def alSet (k : String) (v : α) : List (String × α) → List (String × α)
  | [] => [(k, v)]
  | (k', v') :: t => if k' = k then (k', v) :: t else (k', v') :: alSet k v t

/-- Python `d.setdefault(k, v)`: inserts `v` at the end when `k` is absent,
leaves the dict unchanged otherwise. -/
def alSetd (k : String) (v : α) (l : List (String × α)) : List (String × α) :=
  match alGet k l with
  | some _ => l
  | none => l ++ [(k, v)]

/-- Inner dict of an entitlement set: entitlement kind → list of names
(`{"groups": [...]}`). -/
abbrev EntList := List (String × List String)

/-- An entitlement set: target system → kind → list of names
(`{"google": {"groups": [...]}, "github": {"teams": [...]}}`). -/
abbrev EntSet := List (String × EntList)

/-- `d.get(sys, {}).get(kind, [])` — the names recorded for one system/kind. -/
def namesAt (d : EntSet) (s k : String) : List String :=
  ((alGet s d).bind (alGet k)).getD []

/-- One action dict produced by `plan_changes`, e.g.
`{"target": "google", "action": "add_group", "group": g}` (the name is keyed
by `group` for google and `team` for github in the source). -/
structure Change where
  target : String
  action : String
  name : String
deriving DecidableEq, Repr

/-- `app.services.diff.plan_changes`: compare desired vs current membership
to produce add/remove actions.  The Python builds `set(...)` of each list and
emits `sorted(d - c)` adds then `sorted(c - d)` removes, first for google
groups, then for github teams. -/
def plan_changes (desired current : EntSet) : List Change :=
  let dG := namesAt desired "google" "groups"
  let cG := namesAt current "google" "groups"
  let dT := namesAt desired "github" "teams"
  let cT := namesAt current "github" "teams"
  (pySortedDiff dG cG).map (fun g => ⟨"google", "add_group", g⟩)
  ++ (pySortedDiff cG dG).map (fun g => ⟨"google", "remove_group", g⟩)
  ++ (pySortedDiff dT cT).map (fun t => ⟨"github", "add_team", t⟩)
  ++ (pySortedDiff cT dT).map (fun t => ⟨"github", "remove_team", t⟩)

example : plan_changes
    [("google", [("groups", ["a", "b"])])]
    [("google", [("groups", ["b", "c"])])] =
    [⟨"google", "add_group", "a"⟩, ⟨"google", "remove_group", "c"⟩] := by
  decide

/-- Does the entitlement set record kind `k` under system `s`
(even with an empty list)? -/
def hasKind (d : EntSet) (s k : String) : Bool :=
  ((alGet s d).bind (alGet k)).isSome

/-! ### Lemmas about `plan_changes` -/

theorem pySortedDiff_eq_nil_iff (a b : List String) :
    pySortedDiff a b = [] ↔ ∀ x ∈ a, x ∈ b := by
  rw [pySortedDiff]
  constructor
  · intro h x hx
    by_contra hxb
    have hm : x ∈ pySortedSet (a.filter (fun x => decide (x ∉ b))) := by
      rw [mem_pySortedSet, List.mem_filter]
      exact ⟨hx, by simpa using hxb⟩
    rw [h] at hm
    cases hm
  · intro h
    have : a.filter (fun x => decide (x ∉ b)) = [] := by
      rw [List.filter_eq_nil_iff]
      intro x hx
      simpa using h x hx
    rw [this]
    rfl

/-- The predicate `plan_changes` actions are classified by. -/
def isAct (t a : String) (ch : Change) : Bool :=
  ch.target == t && ch.action == a

theorem seg_filter_self (t a : String) (X : List String) :
    (X.map (fun g => (⟨t, a, g⟩ : Change))).filter (isAct t a)
      = X.map (fun g => (⟨t, a, g⟩ : Change)) := by
  rw [List.filter_eq_self]
  intro ch hch
  rcases List.mem_map.mp hch with ⟨g, _, rfl⟩
  simp [isAct]

theorem seg_filter_other (t a t' a' : String) (h : ¬(t = t' ∧ a = a'))
    (X : List String) :
    (X.map (fun g => (⟨t, a, g⟩ : Change))).filter (isAct t' a') = [] := by
  rw [List.filter_eq_nil_iff]
  intro ch hch
  rcases List.mem_map.mp hch with ⟨g, _, rfl⟩
  simp only [isAct, Bool.and_eq_true, beq_iff_eq, not_and]
  intro ht
  intro ha
  exact h ⟨ht, ha⟩

theorem seg_map_name (t a : String) (X : List String) :
    ((X.map (fun g => (⟨t, a, g⟩ : Change))).map Change.name) = X := by
  rw [List.map_map]
  exact List.map_id' X

theorem plan_filter_ga (desired current : EntSet) :
    (plan_changes desired current).filter (isAct "google" "add_group")
      = (pySortedDiff (namesAt desired "google" "groups")
          (namesAt current "google" "groups")).map
            (fun g => (⟨"google", "add_group", g⟩ : Change)) := by
  simp only [plan_changes]
  rw [List.filter_append, List.filter_append, List.filter_append,
      seg_filter_self,
      seg_filter_other "google" "remove_group" "google" "add_group" (by simp),
      seg_filter_other "github" "add_team" "google" "add_group" (by simp),
      seg_filter_other "github" "remove_team" "google" "add_group" (by simp)]
  simp

theorem plan_filter_gr (desired current : EntSet) :
    (plan_changes desired current).filter (isAct "google" "remove_group")
      = (pySortedDiff (namesAt current "google" "groups")
          (namesAt desired "google" "groups")).map
            (fun g => (⟨"google", "remove_group", g⟩ : Change)) := by
  simp only [plan_changes]
  rw [List.filter_append, List.filter_append, List.filter_append,
      seg_filter_self,
      seg_filter_other "google" "add_group" "google" "remove_group" (by simp),
      seg_filter_other "github" "add_team" "google" "remove_group" (by simp),
      seg_filter_other "github" "remove_team" "google" "remove_group" (by simp)]
  simp

theorem plan_filter_ta (desired current : EntSet) :
    (plan_changes desired current).filter (isAct "github" "add_team")
      = (pySortedDiff (namesAt desired "github" "teams")
          (namesAt current "github" "teams")).map
            (fun t => (⟨"github", "add_team", t⟩ : Change)) := by
  simp only [plan_changes]
  rw [List.filter_append, List.filter_append, List.filter_append,
      seg_filter_self,
      seg_filter_other "google" "add_group" "github" "add_team" (by simp),
      seg_filter_other "google" "remove_group" "github" "add_team" (by simp),
      seg_filter_other "github" "remove_team" "github" "add_team" (by simp)]
  simp

theorem plan_filter_tr (desired current : EntSet) :
    (plan_changes desired current).filter (isAct "github" "remove_team")
      = (pySortedDiff (namesAt current "github" "teams")
          (namesAt desired "github" "teams")).map
            (fun t => (⟨"github", "remove_team", t⟩ : Change)) := by
  simp only [plan_changes]
  rw [List.filter_append, List.filter_append, List.filter_append,
      seg_filter_self,
      seg_filter_other "google" "add_group" "github" "remove_team" (by simp),
      seg_filter_other "google" "remove_group" "github" "remove_team" (by simp),
      seg_filter_other "github" "add_team" "github" "remove_team" (by simp)]
  simp

/-- C2 as stated is false on the code: `plan_changes` only diffs
`google.groups` and `github.teams`, so a discrepancy under any other
system/kind (here `slack.channels`) yields an empty plan even though the
desired and current name sets differ for a kind present in desired. -/
theorem plan_changes_empty_iff_counterexample :
    ¬ (plan_changes [("slack", [("channels", ["a"])])] [] = [] ↔
       ∀ s k, (hasKind [("slack", [("channels", ["a"])])] s k = true ∨
               hasKind ([] : EntSet) s k = true) →
         (∀ x, x ∈ namesAt [("slack", [("channels", ["a"])])] s k ↔
               x ∈ namesAt ([] : EntSet) s k)) := by
  intro h
  have h2 := h.mp (by decide)
  have h3 := (h2 "slack" "channels" (by decide) "a").mp (by decide)
  simp [namesAt, alGet] at h3

/-- C2 (amended): `plan_changes` returns the empty list iff the desired and
current name sets agree on the two system/kind pairs the diff covers,
`google.groups` and `github.teams`. -/
theorem plan_changes_empty_iff (desired current : EntSet) :
    plan_changes desired current = [] ↔
    ((∀ x, x ∈ namesAt desired "google" "groups" ↔
           x ∈ namesAt current "google" "groups") ∧
     (∀ x, x ∈ namesAt desired "github" "teams" ↔
           x ∈ namesAt current "github" "teams")) := by
  simp only [plan_changes, List.append_eq_nil, List.map_eq_nil_iff,
    pySortedDiff_eq_nil_iff]
  constructor
  · rintro ⟨⟨⟨h1, h2⟩, h3⟩, h4⟩
    exact ⟨fun x => ⟨fun hx => h1 x hx, fun hx => h2 x hx⟩,
           fun x => ⟨fun hx => h3 x hx, fun hx => h4 x hx⟩⟩
  · rintro ⟨hG, hT⟩
    exact ⟨⟨⟨fun x hx => (hG x).mp hx, fun x hx => (hG x).mpr hx⟩,
            fun x hx => (hT x).mp hx⟩, fun x hx => (hT x).mpr hx⟩

/-- C3: for each of the two kinds the diff covers, `plan_changes` emits
exactly one add action per element of desired − current followed by exactly
one remove action per element of current − desired, each group listed in
sorted order, and the whole plan is exactly these four groups in order
(google adds, google removes, github adds, github removes). -/
theorem plan_changes_segments (desired current : EntSet) :
    ((plan_changes desired current).filter (isAct "google" "add_group")).map
        Change.name =
      ((namesAt desired "google" "groups").toFinset \
        (namesAt current "google" "groups").toFinset).sort (· ≤ ·)
  ∧ ((plan_changes desired current).filter (isAct "google" "remove_group")).map
        Change.name =
      ((namesAt current "google" "groups").toFinset \
        (namesAt desired "google" "groups").toFinset).sort (· ≤ ·)
  ∧ ((plan_changes desired current).filter (isAct "github" "add_team")).map
        Change.name =
      ((namesAt desired "github" "teams").toFinset \
        (namesAt current "github" "teams").toFinset).sort (· ≤ ·)
  ∧ ((plan_changes desired current).filter (isAct "github" "remove_team")).map
        Change.name =
      ((namesAt current "github" "teams").toFinset \
        (namesAt desired "github" "teams").toFinset).sort (· ≤ ·)
  ∧ plan_changes desired current =
      (plan_changes desired current).filter (isAct "google" "add_group")
      ++ (plan_changes desired current).filter (isAct "google" "remove_group")
      ++ (plan_changes desired current).filter (isAct "github" "add_team")
      ++ (plan_changes desired current).filter (isAct "github" "remove_team") := by
  refine ⟨?_, ?_, ?_, ?_, ?_⟩
  · rw [plan_filter_ga, seg_map_name, pySortedDiff_eq_sort]
  · rw [plan_filter_gr, seg_map_name, pySortedDiff_eq_sort]
  · rw [plan_filter_ta, seg_map_name, pySortedDiff_eq_sort]
  · rw [plan_filter_tr, seg_map_name, pySortedDiff_eq_sort]
  · rw [plan_filter_ga, plan_filter_gr, plan_filter_ta, plan_filter_tr]
    rfl

/-! ### Identity engine (`app.services.identity_engine.IdentityEngine`) -/

/-- The whitespace characters Python's `str.strip()` removes (ASCII part). -/
def pyIsSpace (c : Char) : Bool :=
  c == ' ' || c == '\t' || c == '\n' || c == '\r' ||
  c == Char.ofNat 11 || c == Char.ofNat 12

/-- The characters stripped by `.strip('"\x27')`: double or single quote. -/
def isQuote (c : Char) : Bool := c == '"' || c == Char.ofNat 39

/-- Python `str.strip(chars)`: remove characters satisfying `p` from both
ends. -/
def pyStripBoth (p : Char → Bool) (l : List Char) : List Char :=
  ((l.dropWhile p).reverse.dropWhile p).reverse

/-- Python `s.strip()`. -/
def pyStrip (s : String) : String := ⟨pyStripBoth pyIsSpace s.data⟩

/-- Python `s.lower()` (ASCII case folding via `Char.toLower`, which covers
the status values the engine compares). -/
def pyLower (s : String) : String := ⟨s.data.map Char.toLower⟩

/-- Python `(x or "")` for an optional string: `None` and `""` are falsy and
yield `""`; any other string is returned unchanged. -/
def orEmpty : Option String → String
  | none => ""
  | some s => s

/-- A user record as passed to `desired_for_user`: each attribute may be
missing or `None`. -/
structure UserRec where
  email : Option String := none
  department : Option String := none
  title : Option String := none
  location : Option String := none
  employment_type : Option String := none
  status : Option String := none
deriving DecidableEq, Repr

/-- The rule-evaluation context built inside `desired_for_user`. -/
structure RuleCtx where
  location : Option String
  employment_type : Option String
  department : Option String
  title : Option String
  status : Option String
deriving DecidableEq, Repr

def mkCtx (u : UserRec) : RuleCtx :=
  ⟨u.location, u.employment_type, u.department, u.title, u.status⟩

/-- `context.get(field)`: verbatim lookup of the five context keys,
`None` for any other field. -/
def ctxGet (ctx : RuleCtx) (f : String) : Option String :=
  if f = "location" then ctx.location
  else if f = "employment_type" then ctx.employment_type
  else if f = "department" then ctx.department
  else if f = "title" then ctx.title
  else if f = "status" then ctx.status
  else none

/-- The separator `" == "` the evaluator splits on. -/
def eqOp : List Char := [' ', '=', '=', ' ']

/-- The separator `" != "`. -/
def neOp : List Char := [' ', '!', '=', ' ']

/-- Python `s.split(sep, 1)` restricted to the case used by the engine:
`none` when `sep` does not occur in the list, otherwise the parts before and
after the first occurrence.  (`" == " in s` is exactly `(splitFirst ..).isSome`.) -/
def splitFirst (sep : List Char) : List Char → Option (List Char × List Char)
  | [] => none
  | c :: t =>
    if sep.isPrefixOf (c :: t) then some ([], (c :: t).drop sep.length)
    else
      match splitFirst sep t with
      | some (a, b) => some (c :: a, b)
      | none => none

/-- `field.strip()`, `value.strip().strip('"\x27')`,
`context.get(field) == value` — the comparison both branches of
`_safe_eval_rule` perform (`None == value` is `False` in Python, matching
`Option` equality against `some`). -/
def evalCmp (ctx : RuleCtx) (f v : List Char) : Bool :=
  ctxGet ctx ⟨pyStripBoth pyIsSpace f⟩ ==
    some ⟨pyStripBoth isQuote (pyStripBoth pyIsSpace v)⟩

/-- `IdentityEngine._safe_eval_rule`: strip the expression, split on
`" == "` (first) or `" != "`, compare; any other format returns `False`. -/
def safe_eval_rule (rule_expr : String) (ctx : RuleCtx) : Bool :=
  let e := pyStripBoth pyIsSpace rule_expr.data
  match splitFirst eqOp e with
  | some (f, v) => evalCmp ctx f v
  | none =>
    match splitFirst neOp e with
    | some (f, v) => !(evalCmp ctx f v)
    | none => false

/-- A grant is shaped like an entitlement set: system → kind → names. -/
abbrev Grant := EntSet

/-- A conditional rule of `entitlements.yaml`: `{when: predicate, grant: …}`. -/
structure Rule where
  «when» : String
  grant : Grant
deriving DecidableEq, Repr

/-- The loaded configuration: `roles` maps department names to grants,
`rules` is the ordered rule list. -/
structure Cfg where
  roles : List (String × Grant)
  rules : List Rule
deriving DecidableEq, Repr

/-- The initial value of `desired` in `desired_for_user`. -/
def emptyDesired : EntSet := [("google", [("groups", [])]), ("github", [("teams", [])])]

/-- `desired[s][k] += v` for keys that are present (they always are when the
engine calls this; for absent keys Python would raise, which is unreachable
from `desired_for_user`). -/
def addToPath (d : EntSet) (s k : String) (v : List String) : EntSet :=
  let inner := (alGet s d).getD []
  alSet s (alSet k ((alGet k inner).getD [] ++ v) inner) d

/-- The grant-application loop body:
`desired.setdefault(sys, {}).setdefault(k, []); desired[sys][k] += v`
over all `sys, parts` of the grant and `k, v` of each part. -/
def applyGrant (d : EntSet) (grant : Grant) : EntSet :=
  grant.foldl
    (fun d p =>
      match p with
      | (sys, parts) =>
        parts.foldl
          (fun d q =>
            match q with
            | (k, v) =>
              let d1 := alSetd sys [] d
              let inner := (alGet sys d1).getD []
              let inner1 := alSetd k [] inner
              alSet sys (alSet k ((alGet k inner1).getD [] ++ v) inner1) d1)
          d)
    d

/-- One iteration of the rule loop: evaluate the predicate against the
context built from the user; on `true` apply the grant, otherwise leave
`desired` unchanged (a `False` or failing rule contributes nothing). -/
def applyRule (u : UserRec) (d : EntSet) (r : Rule) : EntSet :=
  if safe_eval_rule r.when (mkCtx u) then applyGrant d r.grant else d

/-- The final normalisation: `desired[sys][k] = sorted(set(desired[sys][k]))`
for every system and kind. -/
def normalizeEnt (d : EntSet) : EntSet :=
  d.map (fun p => (p.1, p.2.map (fun q => (q.1, pySortedSet q.2))))

/-- `IdentityEngine.desired_for_user`. -/
def desired_for_user (cfg : Cfg) (u : UserRec) : EntSet :=
  let desired := emptyDesired
  let user_status := pyStrip (orEmpty u.status)
  if pyLower user_status = "terminated" then desired
  else
    let dept := pyStrip (orEmpty u.department)
    let desired :=
      match alGet dept cfg.roles with
      | some role =>
        addToPath (addToPath desired "google" "groups" (namesAt role "google" "groups"))
          "github" "teams" (namesAt role "github" "teams")
      | none => desired
    let desired := cfg.rules.foldl (applyRule u) desired
    normalizeEnt desired

example :
    desired_for_user
      ⟨[("Engineering", [("google", [("groups", ["eng@x.com"])])])],
       [⟨"location == \"Remote\"", [("github", [("teams", ["remote-access"])])]⟩]⟩
      { department := some "Engineering", location := some "Remote",
        status := some "Active" } =
    [("google", [("groups", ["eng@x.com"])]),
     ("github", [("teams", ["remote-access"])])] := by
  decide

example :
    desired_for_user
      ⟨[("Engineering", [("google", [("groups", ["eng@x.com"])])])], []⟩
      { department := some "Engineering", status := some " Terminated " } =
    emptyDesired := by
  decide

/-! ### Association-list lemmas -/

theorem alGet_alSet_self (k : String) (v : α) :
    ∀ l : List (String × α), alGet k (alSet k v l) = some v := by
  intro l
  induction l with
  | nil => simp [alGet, alSet]
  | cons p t ih =>
    rcases p with ⟨k', v'⟩
    by_cases h : k' = k
    · simp [alGet, alSet, h]
    · simp [alGet, alSet, h, ih]

theorem alGet_alSet_ne (k k' : String) (v : α) (h : k' ≠ k) :
    ∀ l : List (String × α), alGet k' (alSet k v l) = alGet k' l := by
  intro l
  induction l with
  | nil => simp [alGet, alSet, Ne.symm h]
  | cons p t ih =>
    rcases p with ⟨k₀, v₀⟩
    by_cases h0 : k₀ = k
    · subst h0
      simp [alGet, alSet, Ne.symm h]
    · simp only [alSet, if_neg h0]
      by_cases h1 : k₀ = k'
      · simp [alGet, h1]
      · simp [alGet, h1, ih]

theorem alGet_append_left (k : String) {l : List (String × α)} {x : α}
    (h : alGet k l = some x) (l2 : List (String × α)) :
    alGet k (l ++ l2) = some x := by
  induction l with
  | nil => simp [alGet] at h
  | cons p t ih =>
    rcases p with ⟨k₀, v₀⟩
    by_cases h0 : k₀ = k
    · simp [alGet, h0] at h ⊢
      exact h
    · simp [alGet, h0] at h ⊢
      exact ih h

theorem alGet_alSetd_of_isSome (k k' : String) (v : α)
    {l : List (String × α)} (h : (alGet k' l).isSome = true) :
    alGet k' (alSetd k v l) = alGet k' l := by
  rw [alSetd]
  cases hk : alGet k l with
  | some _ => rfl
  | none =>
    rcases Option.isSome_iff_exists.mp h with ⟨x, hx⟩
    rw [hx, alGet_append_left k' hx]

theorem alGet_map_val (f : α → β) (k : String) :
    ∀ l : List (String × α),
      alGet k (l.map (fun p => (p.1, f p.2))) = (alGet k l).map f := by
  intro l
  induction l with
  | nil => simp [alGet]
  | cons p t ih =>
    rcases p with ⟨k₀, v₀⟩
    by_cases h : k₀ = k
    · simp [alGet, h]
    · simp [alGet, h, ih]

theorem foldl_preserve {α β : Type} (P : β → Prop) {f : β → α → β}
    (hf : ∀ b a, P b → P (f b a)) :
    ∀ (l : List α) (b : β), P b → P (l.foldl f b) := by
  intro l
  induction l with
  | nil => intro b hb; exact hb
  | cons a t ih => intro b hb; exact ih (f b a) (hf b a hb)

/-- The result records kind `k` under system `s`. -/
def hasPath (d : EntSet) (s k : String) : Prop :=
  ∃ inner, alGet s d = some inner ∧ (alGet k inner).isSome = true

theorem hasPath_alSetdStep (s k sys k' : String) (names : List String)
    (d : EntSet) (h : hasPath d s k) :
    hasPath
      (alSet sys (alSet k' names (alSetd k' [] ((alGet sys (alSetd sys [] d)).getD [])))
        (alSetd sys [] d)) s k := by
  rcases h with ⟨inner, hs, hk⟩
  by_cases hss : sys = s
  · cases hss
    have hd1 : alGet s (alSetd s [] d) = some inner := by
      rw [alGet_alSetd_of_isSome s s [] (by rw [hs]; rfl)]
      exact hs
    refine ⟨_, alGet_alSet_self s _ _, ?_⟩
    have hinner : (alGet s (alSetd s [] d)).getD [] = inner := by
      rw [hd1]; rfl
    rw [hinner]
    by_cases hkk : k' = k
    · cases hkk
      rw [alGet_alSet_self]; rfl
    · rw [alGet_alSet_ne k' k names (Ne.symm hkk),
        alGet_alSetd_of_isSome k' k [] hk]
      exact hk
  · have hd1 : alGet s (alSetd sys [] d) = some inner := by
      rw [alSetd]
      cases hg : alGet sys d with
      | some _ => exact hs
      | none => exact alGet_append_left s hs _
    exact ⟨inner, by rw [alGet_alSet_ne sys s _ (Ne.symm hss)]; exact hd1, hk⟩

theorem hasPath_applyGrant (s k : String) (d : EntSet) (g : Grant)
    (h : hasPath d s k) : hasPath (applyGrant d g) s k := by
  rw [applyGrant]
  refine foldl_preserve (fun d => hasPath d s k) ?_ g d h
  intro d p hp
  rcases p with ⟨sys, parts⟩
  refine foldl_preserve (fun d => hasPath d s k) ?_ parts d hp
  intro d q hq
  rcases q with ⟨k', v⟩
  exact hasPath_alSetdStep s k sys k' _ d hq

theorem hasPath_addToPath (s k s' k' : String) (v : List String)
    (d : EntSet) (h : hasPath d s k) : hasPath (addToPath d s' k' v) s k := by
  rcases h with ⟨inner, hs, hk⟩
  rw [addToPath]
  by_cases hss : s' = s
  · cases hss
    refine ⟨_, alGet_alSet_self s _ _, ?_⟩
    have hinner : (alGet s d).getD [] = inner := by rw [hs]; rfl
    rw [hinner]
    by_cases hkk : k' = k
    · cases hkk
      rw [alGet_alSet_self]; rfl
    · rw [alGet_alSet_ne k' k _ (Ne.symm hkk)]
      exact hk
  · exact ⟨inner, by rw [alGet_alSet_ne s' s _ (Ne.symm hss)]; exact hs, hk⟩

theorem hasPath_applyRule (s k : String) (u : UserRec) (d : EntSet) (r : Rule)
    (h : hasPath d s k) : hasPath (applyRule u d r) s k := by
  rw [applyRule]
  by_cases hc : safe_eval_rule r.when (mkCtx u) = true
  · rw [if_pos hc]; exact hasPath_applyGrant s k d r.grant h
  · rw [if_neg hc]; exact h

theorem hasPath_normalizeEnt (s k : String) (d : EntSet)
    (h : hasPath d s k) : hasPath (normalizeEnt d) s k := by
  rcases h with ⟨inner, hs, hk⟩
  refine ⟨inner.map (fun q => (q.1, pySortedSet q.2)), ?_, ?_⟩
  · rw [normalizeEnt, alGet_map_val, hs]; rfl
  · rw [alGet_map_val]
    rcases Option.isSome_iff_exists.mp hk with ⟨x, hx⟩
    rw [hx]; rfl

/-! ### Lemmas about `splitFirst` and stripping -/

theorem mem_of_head?Eq {l : List Char} {c : Char} (h : l.head? = some c) :
    c ∈ l := by
  cases l with
  | nil => cases h
  | cons a t =>
    simp only [List.head?] at h
    cases h
    exact List.mem_cons_self _ _

theorem mem_of_getLast?Eq {l : List Char} {c : Char} (h : l.getLast? = some c) :
    c ∈ l := by
  rw [← List.head?_reverse] at h
  exact (List.mem_reverse).mp (mem_of_head?Eq h)

theorem isPrefixOf_false_of_space (sep l : List Char)
    (hs : ∃ c ∈ sep, pyIsSpace c = true) (hl : ∀ c ∈ l, pyIsSpace c = false) :
    sep.isPrefixOf l = false := by
  rw [Bool.eq_false_iff]
  intro hc
  rcases hs with ⟨c, hcs, hcsp⟩
  have hpre : sep <+: l := List.isPrefixOf_iff_prefix.mp hc
  have : c ∈ l := hpre.sublist.mem hcs
  rw [hl c this] at hcsp
  cases hcsp

theorem isPrefixOf_cons_ne (a b : Char) (s t : List Char) (h : ¬ a = b) :
    (a :: s).isPrefixOf (b :: t) = false := by
  simp [List.isPrefixOf, h]

theorem isPrefixOf_cons_same (a : Char) (s t : List Char) :
    (a :: s).isPrefixOf (a :: t) = s.isPrefixOf t := by
  simp [List.isPrefixOf]

theorem splitFirst_cons_of_no_match (sep : List Char) (c : Char)
    (l : List Char) (h : sep.isPrefixOf (c :: l) = false) :
    splitFirst sep (c :: l) =
      Option.map (fun p => (c :: p.1, p.2)) (splitFirst sep l) := by
  rw [splitFirst, h]
  simp only [Bool.false_eq_true, if_false]
  cases splitFirst sep l with
  | none => rfl
  | some p => cases p; rfl

theorem splitFirst_sep_head (sep rest : List Char) (h : sep ≠ []) :
    splitFirst sep (sep ++ rest) = some ([], rest) := by
  cases sep with
  | nil => cases h rfl
  | cons s s' =>
    have hpre : (s :: s').isPrefixOf (s :: (s' ++ rest)) = true :=
      List.isPrefixOf_iff_prefix.mpr ⟨rest, rfl⟩
    show splitFirst (s :: s') (s :: (s' ++ rest)) = some ([], rest)
    rw [splitFirst, if_pos hpre]
    exact congrArg (fun x => some (([] : List Char), x))
      (List.drop_left (s :: s') rest)

theorem splitFirst_none_of_nospace (sep l : List Char)
    (hs : ∃ c ∈ sep, pyIsSpace c = true)
    (hl : ∀ c ∈ l, pyIsSpace c = false) : splitFirst sep l = none := by
  induction l with
  | nil => rfl
  | cons c t ih =>
    rw [splitFirst_cons_of_no_match sep c t (isPrefixOf_false_of_space _ _ hs hl),
      ih (fun c hc => hl c (List.mem_cons_of_mem _ hc))]
    rfl

theorem splitFirst_skip (s' f rest : List Char)
    (hf : ∀ c ∈ f, pyIsSpace c = false) :
    splitFirst (' ' :: s') (f ++ rest) =
      Option.map (fun p => (f ++ p.1, p.2)) (splitFirst (' ' :: s') rest) := by
  induction f with
  | nil =>
    show splitFirst (' ' :: s') rest = _
    cases splitFirst (' ' :: s') rest with
    | none => rfl
    | some p => cases p; rfl
  | cons c f' ih =>
    have hc : pyIsSpace c = false := hf c (List.mem_cons_self _ _)
    have hne : ¬ (' ' = c) := by
      intro h
      rw [← h] at hc
      cases hc
    show splitFirst (' ' :: s') (c :: (f' ++ rest)) = _
    rw [splitFirst_cons_of_no_match _ c _ (isPrefixOf_cons_ne ' ' c _ _ hne),
      ih (fun x hx => hf x (List.mem_cons_of_mem _ hx))]
    cases splitFirst (' ' :: s') rest with
    | none => rfl
    | some p => cases p; rfl

theorem splitFirst_ws_sep (d : Char) (s' ws rest : List Char)
    (hd : pyIsSpace d = false)
    (hws : ∀ c ∈ ws, pyIsSpace c = true) :
    splitFirst (' ' :: d :: s') (ws ++ ((' ' :: d :: s') ++ rest))
      = some (ws, rest) := by
  induction ws with
  | nil => exact splitFirst_sep_head (' ' :: d :: s') rest (by simp)
  | cons w ws' ih =>
    have hws' : ∀ c ∈ ws', pyIsSpace c = true :=
      fun c hc => hws c (List.mem_cons_of_mem _ hc)
    have hstep : (' ' :: d :: s').isPrefixOf
        (w :: (ws' ++ ((' ' :: d :: s') ++ rest))) = false := by
      by_cases hw : ' ' = w
      · rw [← hw, isPrefixOf_cons_same]
        cases ws' with
        | nil =>
          exact isPrefixOf_cons_ne d ' ' _ _
            (fun h => by rw [h] at hd; cases hd)
        | cons w' ws'' =>
          refine isPrefixOf_cons_ne d w' _ _ ?_
          intro h
          have hsp := hws w' (List.mem_cons_of_mem _ (List.mem_cons_self _ _))
          rw [← h] at hsp
          rw [hsp] at hd
          cases hd
      · exact isPrefixOf_cons_ne ' ' w _ _ hw
    show splitFirst (' ' :: d :: s')
        (w :: (ws' ++ ((' ' :: d :: s') ++ rest))) = some (w :: ws', rest)
    rw [splitFirst_cons_of_no_match _ w _ hstep, ih hws']
    rfl

theorem splitFirst_eqOp_spaces_nospace (ws v : List Char)
    (hws : ∀ c ∈ ws, pyIsSpace c = true)
    (hv : ∀ c ∈ v, pyIsSpace c = false) :
    splitFirst eqOp (ws ++ v) = none := by
  induction ws with
  | nil =>
    show splitFirst eqOp v = none
    exact splitFirst_none_of_nospace eqOp v ⟨' ', by decide, rfl⟩ hv
  | cons w ws' ih =>
    have hws' : ∀ c ∈ ws', pyIsSpace c = true :=
      fun c hc => hws c (List.mem_cons_of_mem _ hc)
    have hstep : eqOp.isPrefixOf (w :: (ws' ++ v)) = false := by
      by_cases hw : ' ' = w
      · rw [← hw]
        show (' ' :: ['=', '=', ' ']).isPrefixOf (' ' :: (ws' ++ v)) = false
        rw [isPrefixOf_cons_same]
        cases ws' with
        | nil =>
          exact isPrefixOf_false_of_space _ v ⟨' ', by decide, rfl⟩ hv
        | cons w' ws'' =>
          refine isPrefixOf_cons_ne '=' w' _ _ ?_
          intro h
          have hsp := hws w' (List.mem_cons_of_mem _ (List.mem_cons_self _ _))
          rw [← h] at hsp
          cases hsp
      · exact isPrefixOf_cons_ne ' ' w _ _ hw
    show splitFirst eqOp (w :: (ws' ++ v)) = none
    rw [splitFirst_cons_of_no_match _ w _ hstep, ih hws']
    rfl

theorem splitFirst_eqOp_after_ne (ws v : List Char)
    (hws : ∀ c ∈ ws, pyIsSpace c = true)
    (hv : ∀ c ∈ v, pyIsSpace c = false) :
    splitFirst eqOp (neOp ++ (ws ++ v)) = none := by
  have key : splitFirst eqOp (' ' :: (ws ++ v)) = none := by
    have : splitFirst eqOp ((' ' :: ws) ++ v) = none := by
      refine splitFirst_eqOp_spaces_nospace (' ' :: ws) v ?_ hv
      intro c hc
      rcases List.mem_cons.mp hc with rfl | hc
      · rfl
      · exact hws c hc
    exact this
  have h0 : eqOp.isPrefixOf (' ' :: ('!' :: ('=' :: (' ' :: (ws ++ v))))) = false := by
    show (' ' :: ['=', '=', ' ']).isPrefixOf (' ' :: ('!' :: ('=' :: (' ' :: (ws ++ v))))) = false
    rw [isPrefixOf_cons_same]
    exact isPrefixOf_cons_ne '=' '!' _ _ (by decide)
  have h1 : eqOp.isPrefixOf ('!' :: ('=' :: (' ' :: (ws ++ v)))) = false :=
    isPrefixOf_cons_ne ' ' '!' _ _ (by decide)
  have h2 : eqOp.isPrefixOf ('=' :: (' ' :: (ws ++ v))) = false :=
    isPrefixOf_cons_ne ' ' '=' _ _ (by decide)
  show splitFirst eqOp (' ' :: ('!' :: ('=' :: (' ' :: (ws ++ v))))) = none
  rw [splitFirst_cons_of_no_match _ ' ' _ h0,
    splitFirst_cons_of_no_match _ '!' _ h1,
    splitFirst_cons_of_no_match _ '=' _ h2, key]
  rfl

theorem splitFirst_eqOp_ws_ne (ws1 ws2 v : List Char)
    (h1 : ∀ c ∈ ws1, pyIsSpace c = true)
    (h2 : ∀ c ∈ ws2, pyIsSpace c = true)
    (hv : ∀ c ∈ v, pyIsSpace c = false) :
    splitFirst eqOp (ws1 ++ (neOp ++ (ws2 ++ v))) = none := by
  induction ws1 with
  | nil =>
    show splitFirst eqOp (neOp ++ (ws2 ++ v)) = none
    exact splitFirst_eqOp_after_ne ws2 v h2 hv
  | cons w ws' ih =>
    have hws' : ∀ c ∈ ws', pyIsSpace c = true :=
      fun c hc => h1 c (List.mem_cons_of_mem _ hc)
    have hstep : eqOp.isPrefixOf (w :: (ws' ++ (neOp ++ (ws2 ++ v)))) = false := by
      by_cases hw : ' ' = w
      · rw [← hw]
        show (' ' :: ['=', '=', ' ']).isPrefixOf
          (' ' :: (ws' ++ (neOp ++ (ws2 ++ v)))) = false
        rw [isPrefixOf_cons_same]
        cases ws' with
        | nil =>
          exact isPrefixOf_cons_ne '=' ' ' _ _ (by decide)
        | cons w' ws'' =>
          refine isPrefixOf_cons_ne '=' w' _ _ ?_
          intro h
          have hsp := h1 w' (List.mem_cons_of_mem _ (List.mem_cons_self _ _))
          rw [← h] at hsp
          cases hsp
      · exact isPrefixOf_cons_ne ' ' w _ _ hw
    show splitFirst eqOp (w :: (ws' ++ (neOp ++ (ws2 ++ v)))) = none
    rw [splitFirst_cons_of_no_match _ w _ hstep, ih hws']
    rfl

theorem splitFirst_eq_none_of_not_infix (sep l : List Char)
    (h : ¬ sep <:+: l) : splitFirst sep l = none := by
  induction l with
  | nil => rfl
  | cons c t ih =>
    have hp : sep.isPrefixOf (c :: t) = false := by
      rw [Bool.eq_false_iff]
      intro hc
      exact h (List.isPrefixOf_iff_prefix.mp hc).isInfix
    rw [splitFirst_cons_of_no_match sep c t hp,
      ih (fun hc => h (List.infix_cons hc))]
    rfl

theorem dropWhile_all_append (p : Char → Bool) (l1 l2 : List Char)
    (h : ∀ c ∈ l1, p c = true) :
    (l1 ++ l2).dropWhile p = l2.dropWhile p := by
  induction l1 with
  | nil => rfl
  | cons c t ih =>
    rw [List.cons_append, List.dropWhile_cons,
      h c (List.mem_cons_self c t)]
    simp only [if_true]
    exact ih (fun x hx => h x (List.mem_cons_of_mem _ hx))

theorem dropWhile_eq_self_of_head (p : Char → Bool) (l : List Char)
    (h : ∀ c, l.head? = some c → p c = false) : l.dropWhile p = l := by
  cases l with
  | nil => rfl
  | cons a t =>
    rw [List.dropWhile_cons, h a rfl]
    simp

theorem pyStripBoth_sandwich (p : Char → Bool) (ws0 mid ws3 : List Char)
    (h0 : ∀ c ∈ ws0, p c = true) (h3 : ∀ c ∈ ws3, p c = true)
    (hh : ∀ c, mid.head? = some c → p c = false)
    (hl : ∀ c, mid.getLast? = some c → p c = false)
    (hm : mid ≠ []) :
    pyStripBoth p (ws0 ++ (mid ++ ws3)) = mid := by
  rw [pyStripBoth, dropWhile_all_append p ws0 _ h0]
  have hstep1 : (mid ++ ws3).dropWhile p = mid ++ ws3 := by
    refine dropWhile_eq_self_of_head p _ ?_
    intro c hc
    cases mid with
    | nil => cases hm rfl
    | cons a t =>
      rw [List.cons_append] at hc
      simp only [List.head?] at hc
      cases hc
      exact hh _ rfl
  rw [hstep1, List.reverse_append, dropWhile_all_append p ws3.reverse _
      (fun c hc => h3 c (List.mem_reverse.mp hc))]
  have hstep2 : mid.reverse.dropWhile p = mid.reverse := by
    refine dropWhile_eq_self_of_head p _ ?_
    intro c hc
    rw [List.head?_reverse] at hc
    exact hl c hc
  rw [hstep2, List.reverse_reverse]

theorem getLast?_append_right (l1 l2 : List Char) (h : l2 ≠ []) :
    (l1 ++ l2).getLast? = l2.getLast? := by
  rw [List.getLast?_append]
  rcases Option.isSome_iff_exists.mp (List.getLast?_isSome.mpr h) with ⟨x, hx⟩
  rw [hx]
  rfl

/-- A rule whose predicate evaluates to false leaves `desired` unchanged. -/
theorem applyRule_of_false (u : UserRec) (d : EntSet) (r : Rule)
    (h : safe_eval_rule r.when (mkCtx u) = false) : applyRule u d r = d := by
  rw [applyRule, h]
  simp

/-- C4: a predicate string that contains neither operator token `" == "`
nor `" != "` (after stripping, hence not of either supported form)
evaluates to `false` for every context — the evaluator is a total function,
so no exception is raised — and inserting a rule with such a predicate
anywhere in the policy's rule list leaves `desired_for_user` unchanged:
later rules are still evaluated and their grants applied. -/
theorem safe_eval_rule_fail_closed (expr : String)
    (h1 : ¬ eqOp <:+: pyStripBoth pyIsSpace expr.data)
    (h2 : ¬ neOp <:+: pyStripBoth pyIsSpace expr.data) :
    (∀ ctx : RuleCtx, safe_eval_rule expr ctx = false) ∧
    ∀ (u : UserRec) (roles : List (String × Grant)) (rs1 rs2 : List Rule)
      (g : Grant),
      desired_for_user ⟨roles, rs1 ++ ⟨expr, g⟩ :: rs2⟩ u =
        desired_for_user ⟨roles, rs1 ++ rs2⟩ u := by
  have hfalse : ∀ ctx : RuleCtx, safe_eval_rule expr ctx = false := by
    intro ctx
    rw [safe_eval_rule, splitFirst_eq_none_of_not_infix _ _ h1,
      splitFirst_eq_none_of_not_infix _ _ h2]
  refine ⟨hfalse, ?_⟩
  intro u roles rs1 rs2 g
  have hfold : ∀ d : EntSet,
      List.foldl (applyRule u) d (rs1 ++ ⟨expr, g⟩ :: rs2) =
        List.foldl (applyRule u) d (rs1 ++ rs2) := by
    intro d
    rw [List.foldl_append, List.foldl_append, List.foldl_cons,
      applyRule_of_false u _ ⟨expr, g⟩ (hfalse (mkCtx u))]
  simp only [desired_for_user]
  by_cases hterm : pyLower (pyStrip (orEmpty u.status)) = "terminated"
  · rw [if_pos hterm, if_pos hterm]
  · rw [if_neg hterm, if_neg hterm]
    exact congrArg normalizeEnt (hfold _)

/-- Witness for C4: the garbage predicate `"grant if vip!!"` contains
neither operator token, evaluates to `false`, and removing it from a rule
list does not change the engine's output. -/
theorem safe_eval_rule_fail_closed_witness :
    (∀ ctx : RuleCtx, safe_eval_rule "grant if vip!!" ctx = false) ∧
    ∀ (u : UserRec) (roles : List (String × Grant)) (rs1 rs2 : List Rule)
      (g : Grant),
      desired_for_user ⟨roles, rs1 ++ ⟨"grant if vip!!", g⟩ :: rs2⟩ u =
        desired_for_user ⟨roles, rs1 ++ rs2⟩ u :=
  safe_eval_rule_fail_closed "grant if vip!!" (by decide) (by decide)

/-- C5 as stated is false on the code: with no whitespace around the
operator the evaluator does not recognise the predicate and returns
`false` instead of the comparison result (here the comparison would be
`true`). -/
theorem safe_eval_rule_nospace_counterexample :
    safe_eval_rule "status==\"active\"" ⟨none, none, none, none, some "active"⟩ ≠
      (ctxGet ⟨none, none, none, none, some "active"⟩ "status" ==
        some "active") := by
  decide

/-- C5 (amended): for a predicate whose operator is written with one space
on each side (the token `" == "` or `" != "`), with a whitespace-free field
and literal and arbitrary extra whitespace before the field, before the
operator token, after it, and after the literal, evaluation returns exactly
the comparison of `context[field]` (absent → `null`, equal to no literal)
against the literal with quotes stripped — negated for `"!="`.  With no
whitespace around the operator the predicate is unsupported (see the
counterexample). -/
theorem safe_eval_rule_spaced_eval (ctx : RuleCtx) (f v ws0 ws1 ws2 ws3 : List Char)
    (hf0 : f ≠ []) (hf : ∀ c ∈ f, pyIsSpace c = false)
    (hv0 : v ≠ []) (hv : ∀ c ∈ v, pyIsSpace c = false)
    (h0 : ∀ c ∈ ws0, pyIsSpace c = true) (h1 : ∀ c ∈ ws1, pyIsSpace c = true)
    (h2 : ∀ c ∈ ws2, pyIsSpace c = true) (h3 : ∀ c ∈ ws3, pyIsSpace c = true) :
    safe_eval_rule ⟨ws0 ++ ((f ++ (ws1 ++ (eqOp ++ (ws2 ++ v)))) ++ ws3)⟩ ctx
      = (ctxGet ctx ⟨f⟩ == some ⟨pyStripBoth isQuote v⟩) ∧
    safe_eval_rule ⟨ws0 ++ ((f ++ (ws1 ++ (neOp ++ (ws2 ++ v)))) ++ ws3)⟩ ctx
      = !(ctxGet ctx ⟨f⟩ == some ⟨pyStripBoth isQuote v⟩) := by
  have hhf : ∀ c, f.head? = some c → pyIsSpace c = false :=
    fun c hc => hf c (mem_of_head?Eq hc)
  have hlf : ∀ c, f.getLast? = some c → pyIsSpace c = false :=
    fun c hc => hf c (mem_of_getLast?Eq hc)
  have hlv : ∀ c, v.getLast? = some c → pyIsSpace c = false :=
    fun c hc => hv c (mem_of_getLast?Eq hc)
  have hfield : pyStripBoth pyIsSpace (f ++ ws1) = f := by
    have hsw : pyStripBoth pyIsSpace ([] ++ (f ++ ws1)) = f :=
      pyStripBoth_sandwich pyIsSpace [] f ws1 (by simp) h1 hhf hlf hf0
    exact hsw
  have hval : pyStripBoth pyIsSpace (ws2 ++ v) = v := by
    have hsw : pyStripBoth pyIsSpace (ws2 ++ (v ++ [])) = v :=
      pyStripBoth_sandwich pyIsSpace ws2 v [] h2 (by simp)
        (fun c hc => hv c (mem_of_head?Eq hc)) hlv hv0
    rw [List.append_nil] at hsw
    exact hsw
  constructor
  · have hmid : ∀ c, (f ++ (ws1 ++ (eqOp ++ (ws2 ++ v)))).getLast? = some c →
        pyIsSpace c = false := by
      intro c hc
      rw [getLast?_append_right _ _ (by simp [eqOp]),
        getLast?_append_right _ _ (by simp [eqOp]),
        getLast?_append_right _ _
          (fun hn => hv0 (List.append_eq_nil.mp hn).2),
        getLast?_append_right _ _ hv0] at hc
      exact hlv c hc
    have hmidh : ∀ c, (f ++ (ws1 ++ (eqOp ++ (ws2 ++ v)))).head? = some c →
        pyIsSpace c = false := by
      rcases List.exists_cons_of_ne_nil hf0 with ⟨fc, ft, rfl⟩
      intro c hc
      simp only [List.cons_append, List.head?] at hc
      cases hc
      exact hf _ (List.mem_cons_self _ _)
    have hstrip : pyStripBoth pyIsSpace
        (ws0 ++ ((f ++ (ws1 ++ (eqOp ++ (ws2 ++ v)))) ++ ws3)) =
        f ++ (ws1 ++ (eqOp ++ (ws2 ++ v))) :=
      pyStripBoth_sandwich pyIsSpace ws0 _ ws3 h0 h3 hmidh hmid
        (by simp [eqOp])
    have hskip : splitFirst eqOp (f ++ (ws1 ++ (eqOp ++ (ws2 ++ v)))) =
        Option.map (fun p => (f ++ p.1, p.2))
          (splitFirst eqOp (ws1 ++ (eqOp ++ (ws2 ++ v)))) :=
      splitFirst_skip ['=', '=', ' '] f _ hf
    have hws : splitFirst eqOp (ws1 ++ (eqOp ++ (ws2 ++ v))) =
        some (ws1, ws2 ++ v) :=
      splitFirst_ws_sep '=' ['=', ' '] ws1 (ws2 ++ v) (by decide) h1
    rw [safe_eval_rule]
    simp only [String.data]
    rw [hstrip, hskip, hws]
    show evalCmp ctx (f ++ ws1) (ws2 ++ v) = _
    rw [evalCmp, hfield, hval]
  · have hmid : ∀ c, (f ++ (ws1 ++ (neOp ++ (ws2 ++ v)))).getLast? = some c →
        pyIsSpace c = false := by
      intro c hc
      rw [getLast?_append_right _ _ (by simp [neOp]),
        getLast?_append_right _ _ (by simp [neOp]),
        getLast?_append_right _ _
          (fun hn => hv0 (List.append_eq_nil.mp hn).2),
        getLast?_append_right _ _ hv0] at hc
      exact hlv c hc
    have hmidh : ∀ c, (f ++ (ws1 ++ (neOp ++ (ws2 ++ v)))).head? = some c →
        pyIsSpace c = false := by
      rcases List.exists_cons_of_ne_nil hf0 with ⟨fc, ft, rfl⟩
      intro c hc
      simp only [List.cons_append, List.head?] at hc
      cases hc
      exact hf _ (List.mem_cons_self _ _)
    have hstrip : pyStripBoth pyIsSpace
        (ws0 ++ ((f ++ (ws1 ++ (neOp ++ (ws2 ++ v)))) ++ ws3)) =
        f ++ (ws1 ++ (neOp ++ (ws2 ++ v))) :=
      pyStripBoth_sandwich pyIsSpace ws0 _ ws3 h0 h3 hmidh hmid
        (by simp [neOp])
    have hnone : splitFirst eqOp (f ++ (ws1 ++ (neOp ++ (ws2 ++ v)))) = none := by
      have hskip : splitFirst eqOp (f ++ (ws1 ++ (neOp ++ (ws2 ++ v)))) =
          Option.map (fun p => (f ++ p.1, p.2))
            (splitFirst eqOp (ws1 ++ (neOp ++ (ws2 ++ v)))) :=
        splitFirst_skip ['=', '=', ' '] f _ hf
      rw [hskip, splitFirst_eqOp_ws_ne ws1 ws2 v h1 h2 hv]
      rfl
    have hskipn : splitFirst neOp (f ++ (ws1 ++ (neOp ++ (ws2 ++ v)))) =
        Option.map (fun p => (f ++ p.1, p.2))
          (splitFirst neOp (ws1 ++ (neOp ++ (ws2 ++ v)))) :=
      splitFirst_skip ['!', '=', ' '] f _ hf
    have hwsn : splitFirst neOp (ws1 ++ (neOp ++ (ws2 ++ v))) =
        some (ws1, ws2 ++ v) :=
      splitFirst_ws_sep '!' ['=', ' '] ws1 (ws2 ++ v) (by decide) h1
    rw [safe_eval_rule]
    simp only [String.data]
    rw [hstrip, hnone, hskipn, hwsn]
    show (!(evalCmp ctx (f ++ ws1) (ws2 ++ v)))
      = !(ctxGet ctx ⟨f⟩ == some ⟨pyStripBoth isQuote v⟩)
    rw [evalCmp, hfield, hval]

/-- Witness for C5 (amended): `location  ==  'Remote'` (double spacing,
single quotes) evaluates to the comparison of the context's location with
`Remote`, and the `!=` form to its negation. -/
theorem safe_eval_rule_spaced_eval_witness :
    safe_eval_rule ⟨[] ++ ((("location").data ++ ([' '] ++ (eqOp ++ ([' '] ++
        ("'Remote'").data)))) ++ [])⟩
        ⟨some "Remote", none, none, none, none⟩
      = (ctxGet ⟨some "Remote", none, none, none, none⟩ "location" ==
          some ⟨pyStripBoth isQuote ("'Remote'").data⟩) ∧
    safe_eval_rule ⟨[] ++ ((("location").data ++ ([' '] ++ (neOp ++ ([' '] ++
        ("'Remote'").data)))) ++ [])⟩
        ⟨some "Remote", none, none, none, none⟩
      = !(ctxGet ⟨some "Remote", none, none, none, none⟩ "location" ==
          some ⟨pyStripBoth isQuote ("'Remote'").data⟩) :=
  safe_eval_rule_spaced_eval ⟨some "Remote", none, none, none, none⟩
    ("location").data ("'Remote'").data [] [' '] [' '] []
    (by decide) (by decide) (by decide) (by decide)
    (by decide) (by decide) (by decide) (by decide)

/-- C1: for every policy and every user whose status, after stripping
surrounding whitespace and lowercasing, is `"terminated"`,
`desired_for_user` returns the empty entitlement set for both systems,
regardless of department, roles and rules. -/
theorem desired_for_user_terminated (cfg : Cfg) (u : UserRec)
    (h : pyLower (pyStrip (orEmpty u.status)) = "terminated") :
    namesAt (desired_for_user cfg u) "google" "groups" = [] ∧
    namesAt (desired_for_user cfg u) "github" "teams" = [] := by
  rw [desired_for_user]
  rw [if_pos h]
  exact ⟨rfl, rfl⟩

/-- Witness for C1: a terminated user (with odd spacing and casing in the
status) in a department with a role grant, and a rule that would fire for
any user, still receives empty entitlements. -/
theorem desired_for_user_terminated_witness :
    namesAt (desired_for_user
      ⟨[("Engineering", [("google", [("groups", ["eng@x.com"])])])],
       [⟨"status != \"x\"", [("github", [("teams", ["all"])])]⟩]⟩
      { department := some "Engineering", status := some " TERMINATED " })
      "google" "groups" = [] ∧
    namesAt (desired_for_user
      ⟨[("Engineering", [("google", [("groups", ["eng@x.com"])])])],
       [⟨"status != \"x\"", [("github", [("teams", ["all"])])]⟩]⟩
      { department := some "Engineering", status := some " TERMINATED " })
      "github" "teams" = [] :=
  desired_for_user_terminated _ _ (by decide)

/-- C10: for every policy and every user record (attributes may be missing
or `None`), `desired_for_user` returns (it is a total function), the result
always records `google.groups` and `github.teams`, and every name list in
the result is sorted and duplicate-free. -/
theorem desired_for_user_shape (cfg : Cfg) (u : UserRec) :
    hasPath (desired_for_user cfg u) "google" "groups" ∧
    hasPath (desired_for_user cfg u) "github" "teams" ∧
    ∀ p ∈ desired_for_user cfg u, ∀ q ∈ p.2,
      q.2.Sorted (· ≤ ·) ∧ q.2.Nodup := by
  have hG0 : hasPath emptyDesired "google" "groups" :=
    ⟨[("groups", [])], rfl, rfl⟩
  have hT0 : hasPath emptyDesired "github" "teams" :=
    ⟨[("teams", [])], rfl, rfl⟩
  rw [desired_for_user]
  by_cases hterm : pyLower (pyStrip (orEmpty u.status)) = "terminated"
  · rw [if_pos hterm]
    refine ⟨hG0, hT0, ?_⟩
    intro p hp q hq
    rcases List.mem_cons.mp hp with rfl | hp
    · rcases List.mem_cons.mp hq with rfl | hq
      · exact ⟨List.sorted_nil, List.nodup_nil⟩
      · cases hq
    · rcases List.mem_cons.mp hp with rfl | hp
      · rcases List.mem_cons.mp hq with rfl | hq
        · exact ⟨List.sorted_nil, List.nodup_nil⟩
        · cases hq
      · cases hp
  · rw [if_neg hterm]
    have hstart : ∀ s k : String, hasPath emptyDesired s k →
        hasPath
          (match alGet (pyStrip (orEmpty u.department)) cfg.roles with
           | some role =>
             addToPath (addToPath emptyDesired "google" "groups"
               (namesAt role "google" "groups"))
               "github" "teams" (namesAt role "github" "teams")
           | none => emptyDesired) s k := by
      intro s k h0
      cases alGet (pyStrip (orEmpty u.department)) cfg.roles with
      | some role =>
        exact hasPath_addToPath s k _ _ _ _ (hasPath_addToPath s k _ _ _ _ h0)
      | none => exact h0
    refine ⟨?_, ?_, ?_⟩
    · apply hasPath_normalizeEnt
      exact foldl_preserve (fun d => hasPath d "google" "groups")
        (fun d r hd => hasPath_applyRule _ _ u d r hd) cfg.rules _
        (hstart _ _ hG0)
    · apply hasPath_normalizeEnt
      exact foldl_preserve (fun d => hasPath d "github" "teams")
        (fun d r hd => hasPath_applyRule _ _ u d r hd) cfg.rules _
        (hstart _ _ hT0)
    · intro p hp q hq
      rw [normalizeEnt] at hp
      rcases List.mem_map.mp hp with ⟨p₀, _, rfl⟩
      rcases List.mem_map.mp hq with ⟨q₀, _, rfl⟩
      exact ⟨pySortedSet_sorted q₀.2, pySortedSet_nodup q₀.2⟩

/-! ### Mock provisioner adapters
(`app.services.provisioner.google_ws_mock` / `github_mock`)

Each module keeps an in-memory `_STATE : dict[str, dict]` mapping an email
to `{"groups": [...]}` (resp. `{"teams": [...]}`); since the inner dict
always carries exactly that one key, the state is modelled as an
association list from email to the name list. -/

abbrev AdapterState := List (String × List String)

/-- `GoogleWSMock.fetch_current`:
`{"google": {"groups": _STATE.get(email, {"groups": []}).get("groups", [])}}`. -/
def googleFetch (st : AdapterState) (email : String) : EntSet :=
  [("google", [("groups", (alGet email st).getD [])])]

/-- `GitHubMock.fetch_current`. -/
def githubFetch (st : AdapterState) (email : String) : EntSet :=
  [("github", [("teams", (alGet email st).getD [])])]

/-- The add branch of the apply loop: append the name if the action
matches and the name is absent. -/
def addPhase (addAct : String) (gs : List String) (p : Change) : List String :=
  if p.action = addAct then (if p.name ∈ gs then gs else gs ++ [p.name]) else gs

/-- The remove branch: delete the first occurrence if the action matches
and the name is present (Python `list.remove`). -/
def remPhase (remAct : String) (gs : List String) (p : Change) : List String :=
  if p.action = remAct then (if p.name ∈ gs then gs.erase p.name else gs) else gs

/-- One iteration of the apply loop: skip actions for other targets,
otherwise run the add check then the remove check. -/
def mockStep (tgt addAct remAct : String) (gs : List String) (p : Change) :
    List String :=
  if p.target ≠ tgt then gs else remPhase remAct (addPhase addAct gs p) p

/-- `apply(user_email, plan)`: `setdefault` the entry, process the plan,
sort the list in place. -/
def mockApply (tgt addAct remAct : String) (st : AdapterState) (email : String)
    (plan : List Change) : AdapterState :=
  alSet email
    (sortStr (plan.foldl (mockStep tgt addAct remAct) ((alGet email st).getD [])))
    st

/-- `GoogleWSMock.apply`. -/
def googleApply : AdapterState → String → List Change → AdapterState :=
  mockApply "google" "add_group" "remove_group"

/-- `GitHubMock.apply`. -/
def githubApply : AdapterState → String → List Change → AdapterState :=
  mockApply "github" "add_team" "remove_team"

example :
    googleApply [] "u@x" [⟨"google", "add_group", "b"⟩, ⟨"google", "add_group", "a"⟩,
      ⟨"github", "add_team", "t"⟩] = [("u@x", ["a", "b"])] := by
  decide

/-- The net effect of one action on the membership of name `x`:
`some true` = ensures present, `some false` = ensures absent,
`none` = irrelevant to `x`. -/
def relEffect (tgt addAct remAct x : String) (p : Change) : Option Bool :=
  if p.target = tgt ∧ p.name = x then
    (if p.action = addAct then some true
     else if p.action = remAct then some false else none)
  else none

/-- The effect of the last action of the plan relevant to `x`. -/
def lastEffect (tgt addAct remAct x : String) (plan : List Change) : Option Bool :=
  plan.foldr
    (fun p acc => match acc with
      | some b => some b
      | none => relEffect tgt addAct remAct x p) none

theorem addPhase_nodup (addAct : String) (gs : List String) (p : Change)
    (h : gs.Nodup) : (addPhase addAct gs p).Nodup := by
  rw [addPhase]
  by_cases ha : p.action = addAct
  · rw [if_pos ha]
    by_cases hm : p.name ∈ gs
    · rw [if_pos hm]; exact h
    · rw [if_neg hm]
      refine ((List.perm_append_singleton p.name gs).nodup_iff).mpr ?_
      exact List.Nodup.cons hm h
  · rw [if_neg ha]; exact h

theorem remPhase_nodup (remAct : String) (gs : List String) (p : Change)
    (h : gs.Nodup) : (remPhase remAct gs p).Nodup := by
  rw [remPhase]
  by_cases hr : p.action = remAct
  · rw [if_pos hr]
    by_cases hm : p.name ∈ gs
    · rw [if_pos hm]; exact h.erase p.name
    · rw [if_neg hm]; exact h
  · rw [if_neg hr]; exact h

theorem mockStep_nodup (tgt addAct remAct : String) (gs : List String)
    (p : Change) (h : gs.Nodup) : (mockStep tgt addAct remAct gs p).Nodup := by
  rw [mockStep]
  by_cases ht : p.target = tgt
  · rw [if_neg (fun hc => hc ht)]
    exact remPhase_nodup _ _ _ (addPhase_nodup _ _ _ h)
  · rw [if_pos ht]; exact h

theorem mem_addPhase (addAct x : String) (gs : List String) (p : Change) :
    x ∈ addPhase addAct gs p ↔ (x ∈ gs ∨ (p.action = addAct ∧ p.name = x)) := by
  rw [addPhase]
  by_cases ha : p.action = addAct
  · rw [if_pos ha]
    by_cases hm : p.name ∈ gs
    · rw [if_pos hm]
      constructor
      · exact Or.inl
      · rintro (h | ⟨-, h⟩)
        · exact h
        · rw [← h]; exact hm
    · rw [if_neg hm]
      rw [List.mem_append, List.mem_singleton]
      constructor
      · rintro (h | h)
        · exact Or.inl h
        · exact Or.inr ⟨ha, h.symm⟩
      · rintro (h | ⟨-, h⟩)
        · exact Or.inl h
        · exact Or.inr h.symm
  · rw [if_neg ha]
    constructor
    · exact Or.inl
    · rintro (h | ⟨h, -⟩)
      · exact h
      · exact absurd h ha

theorem mem_remPhase (remAct x : String) (gs : List String) (p : Change)
    (hnd : gs.Nodup) :
    x ∈ remPhase remAct gs p ↔
      (x ∈ gs ∧ ¬(p.action = remAct ∧ p.name = x)) := by
  rw [remPhase]
  by_cases hr : p.action = remAct
  · rw [if_pos hr]
    by_cases hm : p.name ∈ gs
    · rw [if_pos hm, hnd.mem_erase_iff]
      constructor
      · rintro ⟨hnex, hx⟩
        exact ⟨hx, fun hc => hnex hc.2.symm⟩
      · rintro ⟨hx, hn⟩
        exact ⟨fun he => hn ⟨hr, he.symm⟩, hx⟩
    · rw [if_neg hm]
      constructor
      · intro hx
        exact ⟨hx, fun hc => hm (by rw [hc.2]; exact hx)⟩
      · exact And.left
  · rw [if_neg hr]
    constructor
    · intro hx
      exact ⟨hx, fun hc => hr hc.1⟩
    · exact And.left

theorem mem_mockStep (tgt addAct remAct x : String)
    (hne : addAct ≠ remAct) (gs : List String) (p : Change) (hnd : gs.Nodup) :
    x ∈ mockStep tgt addAct remAct gs p ↔
      (match relEffect tgt addAct remAct x p with
       | some b => b = true
       | none => x ∈ gs) := by
  rw [mockStep, relEffect]
  by_cases ht : p.target = tgt
  · rw [if_neg (fun hc => hc ht)]
    rw [mem_remPhase _ _ _ _ (addPhase_nodup _ _ _ hnd), mem_addPhase]
    by_cases hx : p.name = x
    · rw [if_pos ⟨ht, hx⟩]
      by_cases ha : p.action = addAct
      · rw [if_pos ha]
        constructor
        · intro _; rfl
        · intro _
          exact ⟨Or.inr ⟨ha, hx⟩, fun hc => hne (ha.symm.trans hc.1)⟩
      · rw [if_neg ha]
        by_cases hr : p.action = remAct
        · rw [if_pos hr]
          constructor
          · rintro ⟨-, hn⟩
            exact absurd ⟨hr, hx⟩ hn
          · intro h; cases h
        · rw [if_neg hr]
          constructor
          · rintro ⟨(h | ⟨h, -⟩), -⟩
            · exact h
            · exact absurd h ha
          · intro h
            exact ⟨Or.inl h, fun hc => hr hc.1⟩
    · rw [if_neg (fun hc => hx hc.2)]
      constructor
      · rintro ⟨(h | ⟨-, h⟩), -⟩
        · exact h
        · exact absurd h hx
      · intro h
        exact ⟨Or.inl h, fun hc => hx hc.2⟩
  · rw [if_pos ht, if_neg (fun hc => ht hc.1)]

theorem mem_foldStep (tgt addAct remAct x : String) (hne : addAct ≠ remAct) :
    ∀ (plan : List Change) (gs : List String), gs.Nodup →
      (x ∈ plan.foldl (mockStep tgt addAct remAct) gs ↔
        (match lastEffect tgt addAct remAct x plan with
         | some b => b = true
         | none => x ∈ gs)) := by
  intro plan
  induction plan with
  | nil => intro gs _; rfl
  | cons p plan' ih =>
    intro gs hnd
    rw [List.foldl_cons]
    rw [ih (mockStep tgt addAct remAct gs p) (mockStep_nodup _ _ _ _ _ hnd)]
    have hle : lastEffect tgt addAct remAct x (p :: plan') =
        (match lastEffect tgt addAct remAct x plan' with
         | some b => some b
         | none => relEffect tgt addAct remAct x p) := rfl
    rw [hle]
    cases lastEffect tgt addAct remAct x plan' with
    | some b => rfl
    | none =>
      exact mem_mockStep tgt addAct remAct x hne gs p hnd

theorem foldStep_nodup (tgt addAct remAct : String) (plan : List Change)
    (gs : List String) (h : gs.Nodup) :
    (plan.foldl (mockStep tgt addAct remAct) gs).Nodup :=
  foldl_preserve (fun l => l.Nodup)
    (fun l p hl => mockStep_nodup tgt addAct remAct l p hl) plan gs h

theorem alSet_alSet_same (k : String) (v1 v2 : α) :
    ∀ l : List (String × α), alSet k v1 (alSet k v2 l) = alSet k v1 l := by
  intro l
  induction l with
  | nil => simp [alSet]
  | cons p t ih =>
    rcases p with ⟨k0, v0⟩
    by_cases h : k0 = k
    · simp [alSet, h]
    · simp [alSet, h, ih]

theorem mockApply_idem (tgt addAct remAct : String) (hne : addAct ≠ remAct)
    (st : AdapterState) (email : String) (plan : List Change)
    (h : ((alGet email st).getD []).Nodup) :
    mockApply tgt addAct remAct (mockApply tgt addAct remAct st email plan)
      email plan = mockApply tgt addAct remAct st email plan := by
  have hF : (plan.foldl (mockStep tgt addAct remAct)
      ((alGet email st).getD [])).Nodup :=
    foldStep_nodup tgt addAct remAct plan _ h
  have hget : (alGet email (mockApply tgt addAct remAct st email plan)).getD []
      = sortStr (plan.foldl (mockStep tgt addAct remAct)
          ((alGet email st).getD [])) := by
    rw [mockApply, alGet_alSet_self]
    rfl
  have hkey : sortStr (plan.foldl (mockStep tgt addAct remAct)
        (sortStr (plan.foldl (mockStep tgt addAct remAct)
          ((alGet email st).getD []))))
      = sortStr (plan.foldl (mockStep tgt addAct remAct)
          ((alGet email st).getD [])) := by
    have hsnd : (sortStr (plan.foldl (mockStep tgt addAct remAct)
        ((alGet email st).getD []))).Nodup :=
      ((sortStr_perm _).nodup_iff).mpr hF
    refine sorted_nodup_ext (sortStr_sorted _) (sortStr_sorted _)
      (((sortStr_perm _).nodup_iff).mpr
        (foldStep_nodup tgt addAct remAct plan _ hsnd))
      (((sortStr_perm _).nodup_iff).mpr hF) ?_
    intro x
    rw [(sortStr_perm _).mem_iff, (sortStr_perm _).mem_iff,
      mem_foldStep tgt addAct remAct x hne plan _ hsnd,
      mem_foldStep tgt addAct remAct x hne plan _ h]
    cases hle : lastEffect tgt addAct remAct x plan with
    | some b => rfl
    | none =>
      have h2 := mem_foldStep tgt addAct remAct x hne plan _ h
      rw [hle] at h2
      exact ((sortStr_perm _).mem_iff).trans h2
  rw [mockApply, hget, hkey, mockApply, alSet_alSet_same]

/-- C6 as stated is false on the code: with a (non-reachable but
syntactically possible) adapter state holding a duplicated entitlement
name, removing that name applies once per call, so applying the same plan
twice differs from applying it once. -/
theorem adapter_apply_idem_counterexample :
    googleApply (googleApply [("u@x", ["a", "a"])] "u@x"
        [⟨"google", "remove_group", "a"⟩]) "u@x"
        [⟨"google", "remove_group", "a"⟩] ≠
      googleApply [("u@x", ["a", "a"])] "u@x"
        [⟨"google", "remove_group", "a"⟩] := by
  decide

/-- C6 (amended): for every adapter state whose recorded list for the
identity is duplicate-free (every state reachable through the adapters is,
as the initial state is empty and `apply` never inserts a duplicate),
applying the same plan twice equals applying it once, on both adapters;
the post-state list for the identity is sorted in both; and within one
step adding an already-present name or removing an absent one is a no-op. -/
theorem adapter_apply_idem (st : AdapterState) (email : String)
    (plan : List Change) (h : ((alGet email st).getD []).Nodup) :
    googleApply (googleApply st email plan) email plan
        = googleApply st email plan ∧
    githubApply (githubApply st email plan) email plan
        = githubApply st email plan ∧
    (∀ l, alGet email (googleApply st email plan) = some l →
      l.Sorted (· ≤ ·)) ∧
    (∀ l, alGet email (githubApply st email plan) = some l →
      l.Sorted (· ≤ ·)) ∧
    (∀ (gs : List String) (p : Change), p.action = "add_group" →
      p.name ∈ gs → mockStep "google" "add_group" "remove_group" gs p = gs) ∧
    (∀ (gs : List String) (p : Change), p.action = "remove_group" →
      p.name ∉ gs → mockStep "google" "add_group" "remove_group" gs p = gs) ∧
    (∀ (gs : List String) (p : Change), p.action = "add_team" →
      p.name ∈ gs → mockStep "github" "add_team" "remove_team" gs p = gs) ∧
    (∀ (gs : List String) (p : Change), p.action = "remove_team" →
      p.name ∉ gs → mockStep "github" "add_team" "remove_team" gs p = gs) := by
  have noopAdd : ∀ (tgt addAct remAct : String) (hne : addAct ≠ remAct)
      (gs : List String) (p : Change), p.action = addAct → p.name ∈ gs →
      mockStep tgt addAct remAct gs p = gs := by
    intro tgt addAct remAct hne gs p ha hm
    rw [mockStep]
    by_cases ht : p.target = tgt
    · rw [if_neg (fun hc => hc ht), addPhase, if_pos ha, if_pos hm,
        remPhase, if_neg (fun hrr => hne (ha.symm.trans hrr))]
    · rw [if_pos ht]
  have noopRem : ∀ (tgt addAct remAct : String) (hne : addAct ≠ remAct)
      (gs : List String) (p : Change), p.action = remAct → p.name ∉ gs →
      mockStep tgt addAct remAct gs p = gs := by
    intro tgt addAct remAct hne gs p hr hm
    rw [mockStep]
    by_cases ht : p.target = tgt
    · rw [if_neg (fun hc => hc ht), addPhase,
        if_neg (fun ha => hne (ha.symm.trans hr))]
      rw [remPhase, if_pos hr, if_neg hm]
    · rw [if_pos ht]
  have hsorted : ∀ (tgt addAct remAct : String) (l : List String),
      alGet email (mockApply tgt addAct remAct st email plan) = some l →
      l.Sorted (· ≤ ·) := by
    intro tgt addAct remAct l hl
    rw [mockApply, alGet_alSet_self] at hl
    cases hl
    exact sortStr_sorted _
  refine ⟨mockApply_idem _ _ _ (by decide) st email plan h,
    mockApply_idem _ _ _ (by decide) st email plan h,
    hsorted _ _ _, hsorted _ _ _,
    fun gs p => noopAdd _ _ _ (by decide) gs p,
    fun gs p => noopRem _ _ _ (by decide) gs p,
    fun gs p => noopAdd _ _ _ (by decide) gs p,
    fun gs p => noopRem _ _ _ (by decide) gs p⟩

/-- Witness for C6 (amended): a duplicate-free (unsorted) state with a
mixed plan. -/
theorem adapter_apply_idem_witness :
    googleApply (googleApply [("u@x", ["b", "a"])] "u@x"
        [⟨"google", "add_group", "c"⟩, ⟨"google", "remove_group", "b"⟩]) "u@x"
        [⟨"google", "add_group", "c"⟩, ⟨"google", "remove_group", "b"⟩]
      = googleApply [("u@x", ["b", "a"])] "u@x"
          [⟨"google", "add_group", "c"⟩, ⟨"google", "remove_group", "b"⟩] :=
  (adapter_apply_idem [("u@x", ["b", "a"])] "u@x"
    [⟨"google", "add_group", "c"⟩, ⟨"google", "remove_group", "b"⟩]
    (by decide)).1

/-- C7: for an identity with no recorded state, `fetch_current` raises no
error (it is total) and returns the empty entitlement set for the
adapter's own system and kind. -/
theorem fetch_current_absent (gSt hSt : AdapterState) (email : String)
    (hg : alGet email gSt = none) (hh : alGet email hSt = none) :
    googleFetch gSt email = [("google", [("groups", [])])] ∧
    githubFetch hSt email = [("github", [("teams", [])])] := by
  rw [googleFetch, githubFetch, hg, hh]
  exact ⟨rfl, rfl⟩

/-- Witness for C7: the initial (empty) adapter states. -/
theorem fetch_current_absent_witness :
    googleFetch [] "nobody@x" = [("google", [("groups", [])])] ∧
    githubFetch [] "nobody@x" = [("github", [("teams", [])])] :=
  fetch_current_absent [] [] "nobody@x" (by decide) (by decide)

/-! ### The sync task (`app.workers.tasks.run_sync_task`) -/

/-- A `User` row as read by the task.  `email` and `status` are the columns
the task dereferences directly (`u.email`, `u.status.lower()`); `status` is
an enum column with a default, modelled as a plain string. -/
structure Emp where
  email : String
  department : Option String := none
  title : Option String := none
  location : Option String := none
  employment_type : Option String := none
  status : String := "Active"
deriving DecidableEq, Repr

/-- The `user_dict` built in the loop body. -/
def empToUser (u : Emp) : UserRec :=
  ⟨some u.email, u.department, u.title, u.location, u.employment_type,
    some u.status⟩

/-- Python `dict.update`: replace values of existing keys in place, append
new keys at the end. -/
def updateDict (d e : EntSet) : EntSet :=
  e.foldl (fun d p => alSet p.1 p.2 d) d

/-- A reference to a Python list object.  `fetch_current` for an identity
present in `_STATE` returns the *stored* list object, which a later
`apply` mutates in place — modelled as `cell email`, a pointer into the
adapter's state dereferenced only when the result is observed.  For an
absent identity `_STATE.get(email, {"groups": []})` builds a fresh default
detached from state (`apply`'s `setdefault` later installs a *different*
fresh dict), modelled as the literal `lit []`. -/
inductive ListRef where
  | cell (email : String) : ListRef
  | lit (l : List String) : ListRef
deriving DecidableEq, Repr

/-- Read a list reference against an adapter state: a cell holds whatever
the state holds now (`apply` only mutates the stored list in place, never
rebinds it, so the cell's content is always the state's current value). -/
def derefList (st : AdapterState) : ListRef → List String
  | ListRef.cell e => (alGet e st).getD []
  | ListRef.lit l => l

/-- The reference produced by one `fetch_current` call. -/
def fetchRef (st : AdapterState) (email : String) : ListRef :=
  match alGet email st with
  | some _ => ListRef.cell email
  | none => ListRef.lit []

/-- The recorded `access_cleared` value,
`is_terminated and has_current_access`: Python's `and`/`or` return an
operand, so for a terminated user this is the google list object if it was
truthy at check time, otherwise the github list object — again an alias. -/
inductive AccessRef where
  | falseVal : AccessRef
  | ref (google : Bool) (r : ListRef) : AccessRef
deriving DecidableEq, Repr

/-- One per-employee record as appended to `results`:
`{"user", "user_status", "desired", "current", "plan", "access_cleared"}`,
with `desired` and `plan` held by value (freshly built dicts/lists) and the
two `current` name lists and `access_cleared` held as references. -/
structure RichResult where
  user : String
  user_status : String
  desired : EntSet
  currentG : ListRef
  currentT : ListRef
  plan : List Change
  access_cleared : AccessRef
deriving DecidableEq, Repr

/-- The per-employee computation of the loop body: desired entitlements,
current state merged (by value, for the plan and the classification check)
from both adapters, the diff plan, and the recorded `access_cleared`. -/
def richEntry (cfg : Cfg) (gSt hSt : AdapterState) (u : Emp) : RichResult :=
  let desired := desired_for_user cfg (empToUser u)
  let current := updateDict (updateDict [] (googleFetch gSt u.email))
    (githubFetch hSt u.email)
  let plan := plan_changes desired current
  let cleared : AccessRef :=
    if pyLower u.status == "terminated" then
      (if ((alGet u.email gSt).getD []).isEmpty then
        AccessRef.ref false (fetchRef hSt u.email)
       else AccessRef.ref true (fetchRef gSt u.email))
    else AccessRef.falseVal
  ⟨u.email, u.status, desired, fetchRef gSt u.email, fetchRef hSt u.email,
    plan, cleared⟩

/-- `is_terminated and has_current_access` as the truthiness the loop tests
*before* applying (this is when `access_cleared += 1` runs). -/
def clearedNow (gSt hSt : AdapterState) (u : Emp) : Bool :=
  (pyLower u.status == "terminated") &&
    (!((alGet u.email gSt).getD []).isEmpty ||
     !((alGet u.email hSt).getD []).isEmpty)

/-- One iteration of the task loop: compute the entry, bump the
`access_cleared` counter, apply the plan on both adapters unless this is a
dry run, and append the result. -/
def runSyncStep (dryRun : Bool) (cfg : Cfg)
    (s : AdapterState × AdapterState × Nat × List RichResult) (u : Emp) :
    AdapterState × AdapterState × Nat × List RichResult :=
  match s with
  | (gSt, hSt, acc, res) =>
    let entry := richEntry cfg gSt hSt u
    (if dryRun then gSt else googleApply gSt u.email entry.plan,
     if dryRun then hSt else githubApply hSt u.email entry.plan,
     if clearedNow gSt hSt u then acc + 1 else acc,
     res ++ [entry])

/-- A per-employee result as the task's caller observes it (returned and
persisted after the loop): every aliased list read against the final
adapter states; `access_cleared` is Python `False` (`none`) or the aliased
list's observed content (`some l`, truthy iff nonempty). -/
structure ObsResult where
  user : String
  user_status : String
  desired : EntSet
  current : EntSet
  plan : List Change
  access_cleared : Option (List String)
deriving DecidableEq, Repr

def observe (gF hF : AdapterState) (r : RichResult) : ObsResult :=
  ⟨r.user, r.user_status, r.desired,
   [("google", [("groups", derefList gF r.currentG)]),
    ("github", [("teams", derefList hF r.currentT)])],
   r.plan,
   match r.access_cleared with
   | AccessRef.falseVal => none
   | AccessRef.ref true ref => some (derefList gF ref)
   | AccessRef.ref false ref => some (derefList hF ref)⟩

/-- `run_sync_task`: iterate over all users, then return the final adapter
states, the `access_cleared` count and the per-employee results as
observed after the loop (aliases resolved against the final states — this
is the content the summary/return serializes). -/
def run_sync_task (dryRun : Bool) (cfg : Cfg) (emps : List Emp)
    (gSt hSt : AdapterState) :
    AdapterState × AdapterState × Nat × List ObsResult :=
  match emps.foldl (runSyncStep dryRun cfg) (gSt, hSt, 0, []) with
  | (gF, hF, acc, rich) => (gF, hF, acc, rich.map (observe gF hF))

/-- The persisted `run.summary`. -/
structure RunSummary where
  count : Nat
  processed : Nat
  access_cleared : Nat
  terminated_users_processed : Nat
deriving DecidableEq, Repr

def runSummary (res : List ObsResult) (acc : Nat) : RunSummary :=
  ⟨res.length, res.length, acc,
    (res.filter (fun r => pyLower r.user_status == "terminated")).length⟩

theorem richEntry_congr (cfg : Cfg) (g0 h0 gL hL : AdapterState) (u : Emp)
    (hg : alGet u.email gL = alGet u.email g0)
    (hh : alGet u.email hL = alGet u.email h0) :
    richEntry cfg gL hL u = richEntry cfg g0 h0 u := by
  simp only [richEntry, fetchRef, googleFetch, githubFetch, hg, hh]

theorem clearedNow_congr (g0 h0 gL hL : AdapterState) (u : Emp)
    (hg : alGet u.email gL = alGet u.email g0)
    (hh : alGet u.email hL = alGet u.email h0) :
    clearedNow gL hL u = clearedNow g0 h0 u := by
  simp only [clearedNow, hg, hh]

theorem mockApply_alGet_ne (tgt addAct remAct : String) (st : AdapterState)
    (email e : String) (plan : List Change) (h : e ≠ email) :
    alGet e (mockApply tgt addAct remAct st email plan) = alGet e st := by
  rw [mockApply, alGet_alSet_ne email e _ h]

theorem runSync_dry_states (cfg : Cfg) :
    ∀ (emps : List Emp) (g h : AdapterState) (acc : Nat)
      (res : List RichResult),
      (emps.foldl (runSyncStep true cfg) (g, h, acc, res)).1 = g ∧
      (emps.foldl (runSyncStep true cfg) (g, h, acc, res)).2.1 = h := by
  intro emps
  induction emps with
  | nil => intro g h acc res; exact ⟨rfl, rfl⟩
  | cons u emps' ih =>
    intro g h acc res
    rw [List.foldl_cons]
    exact ih g h _ _

theorem runSync_fold_agree (cfg : Cfg) :
    ∀ (emps : List Emp) (g0 h0 gL hL : AdapterState) (acc : Nat)
      (res : List RichResult),
      (emps.map Emp.email).Nodup →
      (∀ u ∈ emps, alGet u.email gL = alGet u.email g0 ∧
        alGet u.email hL = alGet u.email h0) →
      (emps.foldl (runSyncStep true cfg) (g0, h0, acc, res)).2.2 =
        (emps.foldl (runSyncStep false cfg) (gL, hL, acc, res)).2.2 := by
  intro emps
  induction emps with
  | nil => intro g0 h0 gL hL acc res _ _; rfl
  | cons u emps' ih =>
    intro g0 h0 gL hL acc res hnd hmatch
    rw [List.foldl_cons, List.foldl_cons]
    have hentry : richEntry cfg gL hL u = richEntry cfg g0 h0 u :=
      richEntry_congr cfg g0 h0 gL hL u (hmatch u (List.mem_cons_self _ _)).1
        (hmatch u (List.mem_cons_self _ _)).2
    have hclr : clearedNow gL hL u = clearedNow g0 h0 u :=
      clearedNow_congr g0 h0 gL hL u (hmatch u (List.mem_cons_self _ _)).1
        (hmatch u (List.mem_cons_self _ _)).2
    have hmail : u.email ∉ emps'.map Emp.email := by
      rw [List.map_cons] at hnd
      exact (List.nodup_cons.mp hnd).1
    have hnd' : (emps'.map Emp.email).Nodup := by
      rw [List.map_cons] at hnd
      exact (List.nodup_cons.mp hnd).2
    have hstep1 : runSyncStep true cfg (g0, h0, acc, res) u =
        (g0, h0,
         if clearedNow g0 h0 u then acc + 1 else acc,
         res ++ [richEntry cfg g0 h0 u]) := rfl
    have hstep2 : runSyncStep false cfg (gL, hL, acc, res) u =
        (googleApply gL u.email (richEntry cfg g0 h0 u).plan,
         githubApply hL u.email (richEntry cfg g0 h0 u).plan,
         if clearedNow g0 h0 u then acc + 1 else acc,
         res ++ [richEntry cfg g0 h0 u]) := by
      rw [runSyncStep]
      simp only [if_neg Bool.false_ne_true, hentry, hclr]
    rw [hstep1, hstep2]
    refine ih g0 h0 _ _ _ _ hnd' ?_
    intro u' hu'
    have hne : u'.email ≠ u.email := by
      intro hc
      exact hmail (hc ▸ List.mem_map_of_mem Emp.email hu')
    refine ⟨?_, ?_⟩
    · rw [googleApply, mockApply_alGet_ne _ _ _ _ _ _ _ hne]
      exact (hmatch u' (List.mem_cons_of_mem _ hu')).1
    · rw [githubApply, mockApply_alGet_ne _ _ _ _ _ _ _ hne]
      exact (hmatch u' (List.mem_cons_of_mem _ hu')).2

theorem obs_filter_term_length (G H : AdapterState) :
    ∀ l : List RichResult,
      ((l.map (observe G H)).filter
        (fun r => pyLower r.user_status == "terminated")).length =
      (l.filter (fun r => pyLower r.user_status == "terminated")).length := by
  intro l
  induction l with
  | nil => rfl
  | cons r t ih =>
    simp only [List.map_cons, List.filter_cons]
    by_cases hp : (pyLower r.user_status == "terminated") = true
    · rw [if_pos (show (pyLower (observe G H r).user_status == "terminated")
          = true from hp), if_pos hp, List.length_cons, List.length_cons, ih]
    · rw [if_neg (show ¬((pyLower (observe G H r).user_status == "terminated")
          = true) from hp), if_neg hp, ih]

/-- C8 as stated is false on the code, even for a single employee:
`fetch_current` returns the stored `_STATE` list object, which a live
run's `apply` mutates in place before `results.append` is observed, and a
terminated employee's recorded `access_cleared` is that very list.  For
one terminated employee with leftover access `["old"]`, the dry run
reports `current.google.groups = ["old"]` and a truthy `access_cleared`,
while the live run reports `[]` and a falsy one. -/
theorem run_sync_dry_run_counterexample :
    ¬ ((run_sync_task true ⟨[], []⟩
        [⟨"b@x", none, none, none, none, "Terminated"⟩]
        [("b@x", ["old"])] []).2.2.2 =
       (run_sync_task false ⟨[], []⟩
        [⟨"b@x", none, none, none, none, "Terminated"⟩]
        [("b@x", ["old"])] []).2.2.2) := by
  decide

/-- C8 (amended): for employees with pairwise-distinct emails (the join
key; the schema leaves email non-unique), a dry run produces per-employee
identity, status, desired entitlements and plan identical to those a live
run from the same initial adapter states would produce, the same
access-cleared count and the same persisted summary, and leaves both
adapter states unchanged.  The recorded per-employee `current` lists and
the `access_cleared` value of a terminated employee alias live adapter
state, so a live run observes them post-apply and they are exempt from the
equality (see the counterexample). -/
theorem run_sync_dry_run_equiv (cfg : Cfg) (emps : List Emp)
    (gSt hSt : AdapterState) (h : (emps.map Emp.email).Nodup) :
    ((run_sync_task true cfg emps gSt hSt).2.2.2).map
        (fun r => (r.user, r.user_status, r.desired, r.plan)) =
      ((run_sync_task false cfg emps gSt hSt).2.2.2).map
        (fun r => (r.user, r.user_status, r.desired, r.plan)) ∧
    (run_sync_task true cfg emps gSt hSt).2.2.1 =
      (run_sync_task false cfg emps gSt hSt).2.2.1 ∧
    (run_sync_task true cfg emps gSt hSt).1 = gSt ∧
    (run_sync_task true cfg emps gSt hSt).2.1 = hSt ∧
    runSummary (run_sync_task true cfg emps gSt hSt).2.2.2
        (run_sync_task true cfg emps gSt hSt).2.2.1 =
      runSummary (run_sync_task false cfg emps gSt hSt).2.2.2
        (run_sync_task false cfg emps gSt hSt).2.2.1 := by
  have hagree := runSync_fold_agree cfg emps gSt hSt gSt hSt 0 []
    h (fun u _ => ⟨rfl, rfl⟩)
  have hrich : (emps.foldl (runSyncStep true cfg) (gSt, hSt, 0, [])).2.2.2 =
      (emps.foldl (runSyncStep false cfg) (gSt, hSt, 0, [])).2.2.2 :=
    congrArg Prod.snd hagree
  have hacc : (emps.foldl (runSyncStep true cfg) (gSt, hSt, 0, [])).2.2.1 =
      (emps.foldl (runSyncStep false cfg) (gSt, hSt, 0, [])).2.2.1 :=
    congrArg Prod.fst hagree
  refine ⟨?_, hacc, (runSync_dry_states cfg emps gSt hSt 0 []).1,
    (runSync_dry_states cfg emps gSt hSt 0 []).2, ?_⟩
  · show (((emps.foldl (runSyncStep true cfg) (gSt, hSt, 0, [])).2.2.2).map
        (observe (emps.foldl (runSyncStep true cfg) (gSt, hSt, 0, [])).1
          (emps.foldl (runSyncStep true cfg) (gSt, hSt, 0, [])).2.1)).map
          (fun r => (r.user, r.user_status, r.desired, r.plan)) =
      (((emps.foldl (runSyncStep false cfg) (gSt, hSt, 0, [])).2.2.2).map
        (observe (emps.foldl (runSyncStep false cfg) (gSt, hSt, 0, [])).1
          (emps.foldl (runSyncStep false cfg) (gSt, hSt, 0, [])).2.1)).map
          (fun r => (r.user, r.user_status, r.desired, r.plan))
    rw [List.map_map, List.map_map, hrich]
    rfl
  · show runSummary
        (((emps.foldl (runSyncStep true cfg) (gSt, hSt, 0, [])).2.2.2).map
          (observe (emps.foldl (runSyncStep true cfg) (gSt, hSt, 0, [])).1
            (emps.foldl (runSyncStep true cfg) (gSt, hSt, 0, [])).2.1))
        (emps.foldl (runSyncStep true cfg) (gSt, hSt, 0, [])).2.2.1 =
      runSummary
        (((emps.foldl (runSyncStep false cfg) (gSt, hSt, 0, [])).2.2.2).map
          (observe (emps.foldl (runSyncStep false cfg) (gSt, hSt, 0, [])).1
            (emps.foldl (runSyncStep false cfg) (gSt, hSt, 0, [])).2.1))
        (emps.foldl (runSyncStep false cfg) (gSt, hSt, 0, [])).2.2.1
    rw [runSummary, runSummary, List.length_map, List.length_map,
      obs_filter_term_length, obs_filter_term_length, hrich, hacc]

/-- Witness for C8 (amended): two distinct employees, one terminated with
leftover access; identity, status, desired and plan agree between the dry
and the live run. -/
theorem run_sync_dry_run_equiv_witness :
    ((run_sync_task true ⟨[("Engineering", [("google", [("groups", ["g"])])])], []⟩
      [⟨"a@x", some "Engineering", none, none, none, "Active"⟩,
       ⟨"b@x", some "Engineering", none, none, none, "Terminated"⟩]
      [("b@x", ["old"])] []).2.2.2).map
        (fun r => (r.user, r.user_status, r.desired, r.plan)) =
    ((run_sync_task false ⟨[("Engineering", [("google", [("groups", ["g"])])])], []⟩
      [⟨"a@x", some "Engineering", none, none, none, "Active"⟩,
       ⟨"b@x", some "Engineering", none, none, none, "Terminated"⟩]
      [("b@x", ["old"])] []).2.2.2).map
        (fun r => (r.user, r.user_status, r.desired, r.plan)) :=
  (run_sync_dry_run_equiv _ _ _ _ (by decide)).1

/-! ### Failure propagation in the sync loop

The loop body of `run_sync_task` contains no `try`/`except`: an exception
raised while fetching or applying one employee's state propagates out of
the task.  The specification's error taxonomy has adapters raise
`ProvisionerError`; we model an adapter run where the adapters raise for a
given set of identities, with Python exception propagation embedded as
`Except` (an uncaught error aborts the whole computation). -/

/-- The task loop with adapters that raise `ProvisionerError` for the
identities selected by `fetchErr`; since the loop has no handler, an error
aborts the run — no result is recorded for the failing employee, later
employees are not processed, and no summary is ever persisted (the run row
keeps `completed_at = null`). -/
def runSyncFallible (dryRun : Bool) (cfg : Cfg) (fetchErr : String → Bool) :
    List Emp → (AdapterState × AdapterState × Nat × List RichResult) →
    Except String (AdapterState × AdapterState × Nat × List RichResult)
  | [], s => Except.ok s
  | u :: rest, s =>
    if fetchErr u.email then Except.error "ProvisionerError"
    else runSyncFallible dryRun cfg fetchErr rest (runSyncStep dryRun cfg s u)

/-- With adapters that never raise, the fallible loop is exactly
`run_sync_task`. -/
theorem runSyncFallible_no_error (dryRun : Bool) (cfg : Cfg)
    (fetchErr : String → Bool) :
    ∀ (emps : List Emp) (s : AdapterState × AdapterState × Nat × List RichResult),
      (∀ u ∈ emps, fetchErr u.email = false) →
      runSyncFallible dryRun cfg fetchErr emps s =
        Except.ok (emps.foldl (runSyncStep dryRun cfg) s) := by
  intro emps
  induction emps with
  | nil => intro s _; rfl
  | cons u rest ih =>
    intro s h
    rw [runSyncFallible, h u (List.mem_cons_self _ _)]
    simp only [Bool.false_eq_true, if_false]
    rw [List.foldl_cons]
    exact ih _ (fun x hx => h x (List.mem_cons_of_mem _ hx))

/-- C9 is what the specification demands, but the code has no
isolate-and-continue logic: when the adapter raises for the first of two
employees, the run aborts with the propagated `ProvisionerError` — no
result records the failure, the second employee is never processed, and no
summary is persisted, contradicting the claim. -/
theorem run_sync_aborts_on_provisioner_error :
    runSyncFallible true
        ⟨[("Engineering", [("google", [("groups", ["g"])])])], []⟩
        (fun e => e == "a@x")
        [⟨"a@x", some "Engineering", none, none, none, "Active"⟩,
         ⟨"b@x", some "Engineering", none, none, none, "Active"⟩]
        ([], [], 0, []) =
      Except.error "ProvisionerError" := by
  rfl

end IamDemo
